import Mathlib

/-!
Verification of the archive ingestion and line-counting pipeline of the
loc-counter repository.

The TypeScript source (src/unnamed/part_000, the archive analyzer, and the
two API routes) is shallowly embedded below.  JavaScript strings are modelled
at the character level (`String` / `List Char`), byte buffers as `List Nat`,
fallible steps as `Option` / `Except`, and the node `path` module (posix
flavour, the deployment platform) is embedded segment-wise exactly following
the node `normalizeString` algorithm.  Workspace-level functions are
parameterized by the host path separator character, because the source
imports the platform-specific `node:path` module.
-/

namespace LocCounter

/-- Model of a byte buffer (each entry a byte value). -/
abbrev Bytes := List Nat

/-- Build a string from a character list. -/
def mkStr (cs : List Char) : String := ⟨cs⟩

/-- Boolean test that the first list is an initial run of the second. -/
def leadChars : List Char → List Char → Bool
  | [], _ => true
  | _ :: _, [] => false
  | a :: as, b :: bs => a = b && leadChars as bs

/-- Model of JavaScript `s.startsWith(pre)`. -/
def strStartsWith (s pre : String) : Bool := leadChars pre.data s.data

/-- ASCII fragment of JavaScript `String.prototype.toLowerCase` on one
character (file extensions are the only strings lowercased by the source). -/
def lowerChar (c : Char) : Char :=
  if 'A' ≤ c ∧ c ≤ 'Z' then Char.ofNat (c.toNat + 32) else c

/-- Model of JavaScript `s.toLowerCase()`. -/
def strToLower (s : String) : String := mkStr (s.data.map lowerChar)

theorem leadChars_append (a t : List Char) : leadChars a (a ++ t) = true := by
  induction a with
  | nil => rfl
  | cons c cs ih => simp [leadChars, ih]

theorem leadChars_iff_exists (pre l : List Char) :
    leadChars pre l = true ↔ ∃ t, pre ++ t = l := by
  induction pre generalizing l with
  | nil => simp [leadChars]
  | cons c cs ih =>
    cases l with
    | nil => simp [leadChars]
    | cons b bs =>
      simp only [leadChars, Bool.and_eq_true, decide_eq_true_eq, ih]
      constructor
      · rintro ⟨rfl, t, rfl⟩
        exact ⟨t, rfl⟩
      · rintro ⟨t, h⟩
        cases h
        exact ⟨rfl, t, rfl⟩

/-! ### A stable descending sort keyed by a natural number

`Array.prototype.sort` (ECMAScript 2019 and later) is a stable sort; the
source sorts the top-files list with the comparator `(a, b) => b.lines -
a.lines` and the two aggregate maps with `(a, b) => b[1] - a[1]`.  A stable
sort under such a comparator is exactly insertion sort with the test
`key x ≥ key y`. -/

/-- Insert `x` in front of the first element whose key is not larger. -/
def insertByDesc (key : α → Nat) (x : α) : List α → List α
  | [] => [x]
  | y :: ys => if key y ≤ key x then x :: y :: ys else y :: insertByDesc key x ys

/-- Stable sort by descending key. -/
def sortByDesc (key : α → Nat) : List α → List α
  | [] => []
  | x :: xs => insertByDesc key x (sortByDesc key xs)

theorem perm_insertByDesc (key : α → Nat) (x : α) (l : List α) :
    List.Perm (insertByDesc key x l) (x :: l) := by
  induction l with
  | nil => simp [insertByDesc]
  | cons y ys ih =>
    by_cases h : key y ≤ key x
    · simp [insertByDesc, h]
    · simp only [insertByDesc, h, if_neg, ite_false]
      exact ((ih.cons y).trans (List.Perm.swap x y ys))

theorem perm_sortByDesc (key : α → Nat) (l : List α) :
    List.Perm (sortByDesc key l) l := by
  induction l with
  | nil => simp [sortByDesc]
  | cons x xs ih =>
    exact (perm_insertByDesc key x (sortByDesc key xs)).trans (ih.cons x)

theorem length_sortByDesc (key : α → Nat) (l : List α) :
    (sortByDesc key l).length = l.length :=
  (perm_sortByDesc key l).length_eq

theorem pairwise_insertByDesc (key : α → Nat) (x : α) (l : List α)
    (h : List.Pairwise (fun a b => key b ≤ key a) l) :
    List.Pairwise (fun a b => key b ≤ key a) (insertByDesc key x l) := by
  induction l with
  | nil => simp [insertByDesc]
  | cons y ys ih =>
    rcases h with _ | ⟨hy, hys⟩
    by_cases hxy : key y ≤ key x
    · rw [insertByDesc, if_pos hxy]
      refine List.Pairwise.cons ?_ (List.Pairwise.cons hy hys)
      intro b hb
      rcases List.mem_cons.mp hb with rfl | hb'
      · exact hxy
      · exact le_trans (hy b hb') hxy
    · rw [insertByDesc, if_neg hxy]
      refine List.Pairwise.cons ?_ (ih hys)
      intro b hb
      have hmem := (perm_insertByDesc key x ys).mem_iff.mp hb
      rcases List.mem_cons.mp hmem with rfl | hb'
      · exact le_of_not_le hxy
      · exact hy b hb'

theorem pairwise_sortByDesc (key : α → Nat) (l : List α) :
    List.Pairwise (fun a b => key b ≤ key a) (sortByDesc key l) := by
  induction l with
  | nil => simp [sortByDesc]
  | cons x xs ih => exact pairwise_insertByDesc key x (sortByDesc key xs) ih

theorem filter_insertByDesc_pos (key : α → Nat) (n : Nat) (x : α) (l : List α)
    (hx : key x = n) :
    (insertByDesc key x l).filter (fun a => key a = n) =
      x :: l.filter (fun a => key a = n) := by
  induction l with
  | nil => simp [insertByDesc, hx]
  | cons y ys ih =>
    by_cases h : key y ≤ key x
    · rw [insertByDesc, if_pos h]
      simp [List.filter_cons, hx]
    · have hyn : ¬ (key y = n) := by
        intro he
        exact h (by omega)
      simp [insertByDesc, h, List.filter_cons, hyn, ih]

theorem filter_insertByDesc_neg (key : α → Nat) (n : Nat) (x : α) (l : List α)
    (hx : ¬ key x = n) :
    (insertByDesc key x l).filter (fun a => key a = n) =
      l.filter (fun a => key a = n) := by
  induction l with
  | nil => simp [insertByDesc, hx]
  | cons y ys ih =>
    by_cases h : key y ≤ key x
    · simp [insertByDesc, h, List.filter_cons, hx]
    · simp [insertByDesc, h, List.filter_cons, ih]

/-- Stability of the sort: elements with any given key keep their order. -/
theorem filter_sortByDesc (key : α → Nat) (n : Nat) (l : List α) :
    (sortByDesc key l).filter (fun a => key a = n) =
      l.filter (fun a => key a = n) := by
  induction l with
  | nil => simp [sortByDesc]
  | cons x xs ih =>
    by_cases hx : key x = n
    · rw [sortByDesc, filter_insertByDesc_pos key n x _ hx, ih,
        List.filter_cons, if_pos (by simpa using hx)]
    · rw [sortByDesc, filter_insertByDesc_neg key n x _ hx, ih,
        List.filter_cons, if_neg (by simpa using hx)]

theorem sum_map_sortByDesc (key g : α → Nat) (l : List α) :
    ((sortByDesc key l).map g).sum = (l.map g).sum :=
  ((perm_sortByDesc key l).map g).sum_eq

/-! ### The node `path` module (posix flavour)

The analyzer calls `path.normalize`, `path.join`, `path.isAbsolute`,
`path.extname`, `path.relative` and `path.basename`.  `normalize` and `join`
are embedded below following the node `posix.normalize` / `posix.join`
implementations: a path is split at `'/'`, the segments are resolved by the
`normalizeString` stack algorithm (dropping empty and `.` segments, letting
`..` pop a previous segment, and keeping leading `..`s only for relative
paths), and the result is reassembled with the original absolute / trailing
separator flags. -/

/-- Split a character list at each occurrence of `sep` (the list of segments
is never empty; a leading, trailing or doubled separator yields an empty
segment, exactly like JavaScript `s.split(sep)`). -/
def splitSegsC (sep : Char) : List Char → List (List Char)
  | [] => [[]]
  | c :: cs =>
    if c = sep then [] :: splitSegsC sep cs
    else
      match splitSegsC sep cs with
      | [] => [[c]]
      | s :: ss => (c :: s) :: ss

/-- Join segments with the separator `sep` (inverse of `splitSegsC`). -/
def interSegsC (sep : Char) : List (List Char) → List Char
  | [] => []
  | [s] => s
  | s :: s2 :: ss => s ++ sep :: interSegsC sep (s2 :: ss)

/-- One step of the node `normalizeString` stack algorithm.  The accumulator
holds the resolved segments in reverse order. -/
def normStep (allowAbove : Bool) (acc : List (List Char)) (seg : List Char) :
    List (List Char) :=
  if seg = [] ∨ seg = ['.'] then acc
  else if seg = ['.', '.'] then
    match acc with
    | [] => if allowAbove then [['.', '.']] else []
    | t :: rest =>
      if t = ['.', '.'] then (if allowAbove then ['.', '.'] :: t :: rest else t :: rest)
      else rest
  else seg :: acc

/-- The node `normalizeString` algorithm: resolve `.` and `..` segments.  `allowAbove`
is true for relative paths (leading `..` segments are kept) and false for
absolute paths (`..` at the root is dropped). -/
def normSegs (allowAbove : Bool) (segs : List (List Char)) : List (List Char) :=
  (segs.foldl (normStep allowAbove) []).reverse

/-- Reassemble a normalized path from its resolved body and the
absolute/trailing-separator flags (the tail of node `posix.normalize`). -/
def assembleNorm (abs trail : Bool) (body : List Char) : String :=
  if body = [] then (if abs then "/" else if trail then "./" else ".")
  else mkStr ((if abs then ['/'] else []) ++ body ++ (if trail then ['/'] else []))

/-- Model of node `path.posix.normalize`. -/
def pnormalize (s : String) : String :=
  if s.data = [] then "."
  else
    assembleNorm (s.data.head? = some '/') (s.data.getLast? = some '/')
      (interSegsC '/'
        (normSegs (!(decide (s.data.head? = some '/'))) (splitSegsC '/' s.data)))

/-- Model of node `path.posix.isAbsolute`. -/
def isAbsolute (s : String) : Bool := s.data.head? = some '/'

/-- Join a list of strings with a separator string. -/
def strIntercalate (sep : String) : List String → String
  | [] => ""
  | [x] => x
  | x :: x2 :: xs => x ++ sep ++ strIntercalate sep (x2 :: xs)

/-- Model of node `path.posix.join` on two arguments: concatenate the
non-empty parts with `'/'` and normalize the result. -/
def pjoin (a b : String) : String :=
  let parts := [a, b].filter (fun p => p.data ≠ [])
  if parts = [] then "." else pnormalize (strIntercalate "/" parts)

/-- Index (from the start) of the last occurrence of `c`, if any. -/
def lastIdxOf (c : Char) (cs : List Char) : Option Nat :=
  match cs with
  | [] => none
  | x :: xs =>
    match lastIdxOf c xs with
    | some i => some (i + 1)
    | none => if x = c then some 0 else none

/-- Model of node `path.extname` applied to a basename (no separators in the
argument): the suffix from the last `.` on, except that a dot in first
position and the special names `.` and `..` give an empty extension. -/
def extnameSeg (base : List Char) : List Char :=
  if base = ['.', '.'] then []
  else
    match lastIdxOf '.' base with
    | none => []
    | some 0 => []
    | some i => base.drop i

/-- Sanity checks of the path embedding against documented node behavior. -/
example : pnormalize "" = "." := by decide
example : pnormalize "a/../b" = "b" := by decide
example : pnormalize "a//b/./c/" = "a/b/c/" := by decide
example : pnormalize "../x" = "../x" := by decide
example : pnormalize "x/.." = "." := by decide
example : pnormalize "x/../" = "./" := by decide
example : pnormalize "/../x" = "/x" := by decide
example : pnormalize "//" = "/" := by decide
example : pnormalize "..foo" = "..foo" := by decide
example : pjoin "/tmp/ws" "a/b" = "/tmp/ws/a/b" := by decide
example : pjoin "/tmp/ws" "./" = "/tmp/ws/" := by decide
example : extnameSeg "a.txt".data = ".txt".data := by decide
example : extnameSeg "a.".data = ".".data := by decide
example : extnameSeg ".bashrc".data = [] := by decide
example : extnameSeg "..".data = [] := by decide
example : extnameSeg "...".data = ".".data := by decide
example : strToLower ".TxT" = ".txt" := by decide

/-! ### Safe extraction (`withExtractedArchive`) -/

/-- The error taxonomy of `class ArchiveError extends Error`, one constructor
per distinct message thrown by the analyzer. -/
inductive ArchiveError
  | emptyArchive        -- "Uploaded archive is empty."
  | tooLarge            -- "Archive exceeds the 200MB limit."
  | noFiles             -- "Archive does not contain any files."
  | unsafePath          -- "Archive contains unsafe paths."
  | noExtensionsSelected -- "At least one extension must be selected."
deriving DecidableEq, Repr

/-- `const MAX_ARCHIVE_BYTES = 200 * 1024 * 1024`. -/
def MAX_ARCHIVE_BYTES : Nat := 200 * 1024 * 1024

/-- `const BINARY_SNIFF_LENGTH = 2048`. -/
def BINARY_SNIFF_LENGTH : Nat := 2048

/-- `const TOP_FILE_LIMIT = 200`. -/
def TOP_FILE_LIMIT : Nat := 200

/-- An adm-zip archive entry: its stored name and (for file entries) its
byte payload. -/
structure Entry where
  entryName : String
  data : Bytes
deriving DecidableEq, Repr

/-- adm-zip classifies an entry as a directory exactly when the last
character of its stored name is a separator. -/
def Entry.isDirectory (e : Entry) : Bool :=
  e.entryName.data.getLast? = some '/' ∨ e.entryName.data.getLast? = some '\\'

/-- An uploaded archive: the `File` size in bytes and the entry list the zip
parser produces from its contents. -/
structure Archive where
  size : Nat
  entries : List Entry
deriving DecidableEq, Repr

/-- The per-entry rejection guard of the extraction loop (first `unsafe
path` branch). -/
def unsafeNormGuard (n : String) : Prop :=
  n = "" ∨ n = "." ∨ strStartsWith n ".." = true ∨ isAbsolute n = true

instance (n : String) : Decidable (unsafeNormGuard n) := by
  unfold unsafeNormGuard; infer_instance

/-- The extraction loop of `withExtractedArchive`: for each entry, normalize
its name, reject unsafe names, join with the workspace root, re-check
containment, and write file entries (directory entries only create
directories).  Returns the list of `(outputPath, data)` pairs written by
`fs.writeFile`, in order. -/
def extractEntries (tempDir : String) : List Entry → Except ArchiveError (List (String × Bytes))
  | [] => .ok []
  | e :: rest =>
    let normalized := pnormalize e.entryName
    if unsafeNormGuard normalized then .error .unsafePath
    else
      let outputPath := pjoin tempDir normalized
      if strStartsWith outputPath tempDir = true then
        if e.isDirectory then extractEntries tempDir rest
        else
          match extractEntries tempDir rest with
          | .error err => .error err
          | .ok others => .ok ((outputPath, e.data) :: others)
      else .error .unsafePath

/-- `withExtractedArchive`, up to the extraction of all entries: the size
guards run before the buffer is decoded, the entry-count guard runs on the
parsed entry list, then each entry is validated and written. -/
def withExtractedArchive (archive : Archive) (tempDir : String) :
    Except ArchiveError (List (String × Bytes)) :=
  if archive.size = 0 then .error .emptyArchive
  else if archive.size > MAX_ARCHIVE_BYTES then .error .tooLarge
  else if archive.entries.length = 0 then .error .noFiles
  else extractEntries tempDir archive.entries

example :
    withExtractedArchive ⟨3, [⟨"a/../../x", [1]⟩]⟩ "/tmp/ws" = .error .unsafePath := rfl
example :
    withExtractedArchive ⟨3, [⟨"a/b.txt", [1]⟩]⟩ "/tmp/ws" =
      .ok [("/tmp/ws/a/b.txt", [1])] := rfl
example :
    withExtractedArchive ⟨3, [⟨"d/", []⟩, ⟨"d/a.txt", [7]⟩]⟩ "/tmp/ws" =
      .ok [("/tmp/ws/d/a.txt", [7])] := rfl

/-! ### Structure lemmas about the path embedding -/

/-- The parent-directory segment. -/
def dd : List Char := ['.', '.']

/-- Segments kept by `normalizeString` without inspection: neither empty nor
the current-directory marker. -/
def keepSeg (s : List Char) : Bool := decide (¬(s = [] ∨ s = ['.']))

/-- A fully resolved path segment: non-empty, no traversal or
current-directory meaning, and free of the separator. -/
def cleanSeg (s : List Char) : Prop :=
  s ≠ [] ∧ s ≠ ['.'] ∧ s ≠ ['.', '.'] ∧ '/' ∉ s

instance (s : List Char) : Decidable (cleanSeg s) := by
  unfold cleanSeg
  infer_instance

/-- A workspace root as `fs.mkdtemp` produces it: an absolute, already
normalized path with no trailing separator, presented by its segments. -/
def cleanAbsDir (td : String) : Prop :=
  ∃ tds, tds ≠ [] ∧ (∀ s ∈ tds, cleanSeg s) ∧ td.data = '/' :: interSegsC '/' tds

theorem splitSegsC_ne_nil (sep : Char) (cs : List Char) : splitSegsC sep cs ≠ [] := by
  induction cs with
  | nil => simp [splitSegsC]
  | cons c cs ih =>
    by_cases hc : c = sep
    · simp [splitSegsC, hc]
    · simp only [splitSegsC, if_neg hc]
      cases h : splitSegsC sep cs with
      | nil => simp
      | cons s ss => simp

theorem splitSegsC_sep_free (sep : Char) (cs : List Char) :
    ∀ s ∈ splitSegsC sep cs, sep ∉ s := by
  induction cs with
  | nil =>
    intro s hs
    simp [splitSegsC] at hs
    simp [hs]
  | cons c cs ih =>
    intro s hs
    by_cases hc : c = sep
    · rw [splitSegsC, if_pos hc] at hs
      rcases List.mem_cons.mp hs with rfl | hs'
      · simp
      · exact ih s hs'
    · rw [splitSegsC, if_neg hc] at hs
      cases h : splitSegsC sep cs with
      | nil => exact absurd h (splitSegsC_ne_nil sep cs)
      | cons t ts =>
        rw [h] at hs
        rcases List.mem_cons.mp hs with rfl | hs'
        · intro hmem
          rcases List.mem_cons.mp hmem with rfl | hmem'
          · exact hc rfl
          · exact ih t (h ▸ List.mem_cons_self t ts) hmem'
        · exact ih s (h ▸ List.mem_cons.mpr (Or.inr hs'))

theorem splitSegsC_sep_free_single (sep : Char) (t : List Char) (h : sep ∉ t) :
    splitSegsC sep t = [t] := by
  induction t with
  | nil => rfl
  | cons c t' ih =>
    have hc : c ≠ sep := fun he => h (he ▸ List.mem_cons_self c t')
    rw [splitSegsC, if_neg hc, ih (fun hm => h (List.mem_cons.mpr (Or.inr hm)))]

theorem splitSegsC_append_sep (sep : Char) (t : List Char) (h : sep ∉ t) (B : List Char) :
    splitSegsC sep (t ++ sep :: B) = t :: splitSegsC sep B := by
  induction t with
  | nil => simp [splitSegsC]
  | cons c t' ih =>
    have hc : c ≠ sep := fun he => h (he ▸ List.mem_cons_self c t')
    rw [List.cons_append, splitSegsC, if_neg hc,
      ih (fun hm => h (List.mem_cons.mpr (Or.inr hm)))]

theorem splitSegsC_interSegsC_append (sep : Char) (ss : List (List Char))
    (hne : ss ≠ []) (hfree : ∀ s ∈ ss, sep ∉ s) (B : List Char) :
    splitSegsC sep (interSegsC sep ss ++ sep :: B) = ss ++ splitSegsC sep B := by
  induction ss with
  | nil => exact absurd rfl hne
  | cons t ss ih =>
    cases ss with
    | nil =>
      simp only [interSegsC, List.singleton_append]
      exact splitSegsC_append_sep sep t (hfree t (List.mem_cons_self t [])) B
    | cons t2 ss2 =>
      rw [interSegsC]
      rw [List.append_assoc, List.cons_append]
      rw [splitSegsC_append_sep sep t (hfree t (List.mem_cons_self _ _))]
      rw [ih (by simp) (fun s hs => hfree s (List.mem_cons.mpr (Or.inr hs)))]
      rfl

theorem splitSegsC_interSegsC (sep : Char) (ss : List (List Char))
    (hne : ss ≠ []) (hfree : ∀ s ∈ ss, sep ∉ s) :
    splitSegsC sep (interSegsC sep ss) = ss := by
  induction ss with
  | nil => exact absurd rfl hne
  | cons t ss ih =>
    cases ss with
    | nil =>
      exact splitSegsC_sep_free_single sep t (hfree t (List.mem_cons_self t []))
    | cons t2 ss2 =>
      rw [interSegsC, splitSegsC_append_sep sep t (hfree t (List.mem_cons_self _ _)),
        ih (by simp) (fun s hs => hfree s (List.mem_cons.mpr (Or.inr hs)))]

theorem interSegsC_ne_nil (sep : Char) (ss : List (List Char)) (hne : ss ≠ [])
    (hkeep : ∀ s ∈ ss, keepSeg s = true) : interSegsC sep ss ≠ [] := by
  cases ss with
  | nil => exact absurd rfl hne
  | cons t ss =>
    have ht : t ≠ [] := by
      have := hkeep t (List.mem_cons_self t ss)
      simp [keepSeg] at this
      exact this.1
    cases ss with
    | nil => exact ht
    | cons t2 ss2 =>
      rw [interSegsC]
      simp [ht]

theorem interSegsC_append (sep : Char) (A B : List (List Char))
    (hA : A ≠ []) (hB : B ≠ []) :
    interSegsC sep (A ++ B) = interSegsC sep A ++ sep :: interSegsC sep B := by
  induction A with
  | nil => exact absurd rfl hA
  | cons t A ih =>
    cases A with
    | nil =>
      cases B with
      | nil => exact absurd rfl hB
      | cons b B2 => rfl
    | cons t2 A2 =>
      have h1 : interSegsC sep ((t :: t2 :: A2) ++ B)
          = t ++ sep :: interSegsC sep ((t2 :: A2) ++ B) := rfl
      rw [h1, ih (by simp), interSegsC, List.append_assoc]
      rfl

theorem normStep_no_dd (flag : Bool) (acc : List (List Char)) (s : List Char)
    (hs : s ≠ dd) :
    normStep flag acc s = if keepSeg s then s :: acc else acc := by
  by_cases hk : keepSeg s = true
  · have hcond : ¬(s = [] ∨ s = ['.']) := by
      simpa [keepSeg] using hk
    rw [normStep.eq_def, if_neg hcond, if_neg (by simpa [dd] using hs), if_pos hk]
  · have hcond : s = [] ∨ s = ['.'] := by
      by_contra hcon
      exact hk (by simpa [keepSeg] using hcon)
    rw [normStep.eq_def, if_pos hcond, if_neg (by simpa using hk)]

theorem foldl_normStep_no_dd (flag : Bool) (ss : List (List Char))
    (hdd : ∀ s ∈ ss, s ≠ dd) (acc : List (List Char)) :
    ss.foldl (normStep flag) acc = (ss.filter keepSeg).reverse ++ acc := by
  induction ss generalizing acc with
  | nil => simp
  | cons s rest ih =>
    rw [List.foldl_cons, normStep_no_dd flag acc s (hdd s (List.mem_cons_self s rest))]
    by_cases hk : keepSeg s = true
    · rw [if_pos hk, ih (fun t ht => hdd t (List.mem_cons.mpr (Or.inr ht))),
        List.filter_cons, if_pos hk, List.reverse_cons, List.append_assoc,
        List.singleton_append]
    · rw [if_neg hk, ih (fun t ht => hdd t (List.mem_cons.mpr (Or.inr ht))),
        List.filter_cons, if_neg hk]

/-- `normalizeString` on segments containing no `..` just filters out empty
and `.` segments. -/
theorem normSegs_no_dd (flag : Bool) (ss : List (List Char))
    (hdd : ∀ s ∈ ss, s ≠ dd) :
    normSegs flag ss = ss.filter keepSeg := by
  rw [normSegs, foldl_normStep_no_dd flag ss hdd, List.append_nil, List.reverse_reverse]

theorem normStep_dd_nil : normStep true [] dd = [dd] := rfl

theorem normStep_dd_cons_dd (acc' : List (List Char)) :
    normStep true (dd :: acc') dd = dd :: dd :: acc' := rfl

theorem normStep_dd_cons_ne (t : List Char) (acc' : List (List Char)) (ht : t ≠ dd) :
    normStep true (t :: acc') dd = acc' := by
  rw [normStep.eq_def]
  rw [if_neg (by simp [dd]), if_pos rfl]
  exact if_neg (by simpa [dd] using ht)

/-- Structure of the `allowAboveRoot` run of `normalizeString`: the output is
a block of leading `..` segments followed by segments taken from the input,
none of which is empty, `.` or `..`. -/
theorem foldl_normStep_true_structure (P : List Char → Prop) :
    ∀ (ss : List (List Char)) (acc rr : List (List Char)) (k : Nat),
      (∀ s ∈ ss, P s) → acc = rr ++ List.replicate k dd → dd ∉ rr →
      (∀ s ∈ rr, keepSeg s = true ∧ s ≠ dd ∧ P s) →
      ∃ k' rr', ss.foldl (normStep true) acc = rr' ++ List.replicate k' dd ∧
        dd ∉ rr' ∧ (∀ s ∈ rr', keepSeg s = true ∧ s ≠ dd ∧ P s) := by
  intro ss
  induction ss with
  | nil =>
    intro acc rr k _ hacc hrr hprops
    exact ⟨k, rr, by simpa using hacc, hrr, hprops⟩
  | cons s rest ih =>
    intro acc rr k hP hacc hrr hprops
    rw [List.foldl_cons]
    have hPrest : ∀ t ∈ rest, P t := fun t ht => hP t (List.mem_cons.mpr (Or.inr ht))
    by_cases hskip : s = [] ∨ s = ['.']
    · rw [normStep.eq_def, if_pos hskip]
      exact ih acc rr k hPrest hacc hrr hprops
    · by_cases hsdd : s = dd
      · subst hsdd
        cases hrrc : rr with
        | nil =>
          subst hrrc
          rw [List.nil_append] at hacc
          cases k with
          | zero =>
            rw [hacc, show (List.replicate 0 dd : List (List Char)) = [] from rfl,
              normStep_dd_nil]
            exact ih [dd] [] 1 hPrest rfl (by simp) (by simp)
          | succ k' =>
            rw [hacc, List.replicate_succ, normStep_dd_cons_dd]
            refine ih _ [] (k' + 2) hPrest ?_ (by simp) (by simp)
            simp [List.replicate_succ]
        | cons r0 rr' =>
          subst hrrc
          have hr0 : r0 ≠ dd := fun he => hrr (he ▸ List.mem_cons_self r0 rr')
          rw [hacc, List.cons_append, normStep_dd_cons_ne r0 _ hr0]
          exact ih _ rr' k hPrest rfl
            (fun he => hrr (List.mem_cons.mpr (Or.inr he)))
            (fun t ht => hprops t (List.mem_cons.mpr (Or.inr ht)))
      · rw [normStep.eq_def, if_neg hskip, if_neg (by simpa [dd] using hsdd)]
        refine ih _ (s :: rr) k hPrest (by rw [hacc]; rfl)
          (fun hmem => by
            rcases List.mem_cons.mp hmem with he | he
            · exact hsdd he.symm
            · exact hrr he)
          (fun t ht => by
            rcases List.mem_cons.mp ht with rfl | ht'
            · exact ⟨by simpa [keepSeg] using hskip, hsdd, hP t (List.mem_cons_self _ _)⟩
            · exact hprops t ht')

theorem normSegs_true_structure (ss : List (List Char)) (P : List Char → Prop)
    (hP : ∀ s ∈ ss, P s) :
    ∃ k rest, normSegs true ss = List.replicate k dd ++ rest ∧
      dd ∉ rest ∧ (∀ s ∈ rest, keepSeg s = true ∧ s ≠ dd ∧ P s) := by
  obtain ⟨k', rr', heq, hrr, hprops⟩ :=
    foldl_normStep_true_structure P ss [] [] 0 hP (by simp) (by simp) (by simp)
  refine ⟨k', rr'.reverse, ?_, by simpa using hrr, fun s hs => hprops s (by simpa using hs)⟩
  rw [normSegs, heq, List.reverse_append, List.reverse_replicate]

theorem assembleNorm_true_abs (t : Bool) (b : List Char) :
    isAbsolute (assembleNorm true t b) = true := by
  rw [assembleNorm]
  by_cases hb : b = []
  · rw [if_pos hb]
    rfl
  · rw [if_neg hb]
    simp [isAbsolute, mkStr]

theorem assembleNorm_data (abs t : Bool) (b : List Char) (hb : b ≠ []) :
    (assembleNorm abs t b).data =
      (if abs then ['/'] else []) ++ b ++ (if t then ['/'] else []) := by
  rw [assembleNorm, if_neg hb]
  rfl

/-- Shape of a normalized relative path that passes the rejection guard:
either it is `./`, or it is a non-empty separator-joined list of plain
segments (no empty, `.` or `..` segments, no separator inside a segment),
with a trailing separator exactly when the raw name had one. -/
theorem pnormalize_cases (raw : String)
    (hguard : ¬ unsafeNormGuard (pnormalize raw)) :
    (pnormalize raw = "./" ∧ raw.data.getLast? = some '/') ∨
      ∃ ns, ns ≠ [] ∧ (∀ s ∈ ns, keepSeg s = true ∧ s ≠ dd ∧ '/' ∉ s) ∧
        (pnormalize raw).data =
          interSegsC '/' ns ++
            (if raw.data.getLast? = some '/' then ['/'] else []) := by
  have hdot : pnormalize raw ≠ "." := fun h => hguard (Or.inr (Or.inl h))
  have hdd2 : ¬ strStartsWith (pnormalize raw) ".." = true :=
    fun h => hguard (Or.inr (Or.inr (Or.inl h)))
  have habs : ¬ isAbsolute (pnormalize raw) = true :=
    fun h => hguard (Or.inr (Or.inr (Or.inr h)))
  by_cases hraw : raw.data = []
  · exact absurd (by rw [pnormalize, if_pos hraw]) hdot
  · by_cases habsf : raw.data.head? = some '/'
    · refine absurd ?_ habs
      rw [pnormalize, if_neg hraw]
      have habsf' : decide (raw.data.head? = some '/') = true := by simp [habsf]
      rw [show ((raw.data.head? = some '/' : Bool)) = decide (raw.data.head? = some '/')
        from rfl, habsf']
      exact assembleNorm_true_abs _ _
    · have habsf' : decide (raw.data.head? = some '/') = false := by simp [habsf]
      have hpn : pnormalize raw =
          assembleNorm false (raw.data.getLast? = some '/')
            (interSegsC '/' (normSegs true (splitSegsC '/' raw.data))) := by
        rw [pnormalize, if_neg hraw]
        rw [show ((raw.data.head? = some '/' : Bool)) = decide (raw.data.head? = some '/')
          from rfl, habsf']
        rfl
      obtain ⟨k, rest, hns, hddrest, hprops⟩ :=
        normSegs_true_structure (splitSegsC '/' raw.data) (fun s => '/' ∉ s)
          (splitSegsC_sep_free '/' raw.data)
      by_cases hb : interSegsC '/' (normSegs true (splitSegsC '/' raw.data)) = []
      · rw [hpn, hb, assembleNorm] at hdot ⊢
        by_cases htr : raw.data.getLast? = some '/'
        · left
          constructor
          · simp [htr]
          · exact htr
        · refine absurd ?_ hdot
          simp [htr]
      · cases k with
        | succ k' =>
          refine absurd ?_ hdd2
          rw [List.replicate_succ, List.cons_append] at hns
          obtain ⟨X, hX⟩ : ∃ X,
              interSegsC '/' (normSegs true (splitSegsC '/' raw.data)) =
                '.' :: '.' :: X := by
            rw [hns]
            cases h2 : List.replicate k' dd ++ rest with
            | nil => exact ⟨[], rfl⟩
            | cons a as => exact ⟨'/' :: interSegsC '/' (a :: as), rfl⟩
          rw [hpn, strStartsWith,
            assembleNorm_data false _ _ hb, hX]
          simp [leadChars]
        | zero =>
          rw [List.replicate_zero, List.nil_append] at hns
          right
          refine ⟨rest, ?_, fun s hs => hprops s hs, ?_⟩
          · intro hrest
            rw [hrest] at hns
            rw [hns] at hb
            exact hb rfl
          · rw [hpn, assembleNorm_data false _ _ hb, hns]
            by_cases htr : raw.data.getLast? = some '/'
            · simp [htr]
            · simp [htr]

theorem keepSeg_nil : keepSeg [] = false := rfl

theorem keepSeg_dot : keepSeg ['.'] = false := rfl

theorem keepSeg_of_cleanSeg (s : List Char) (h : cleanSeg s) : keepSeg s = true := by
  simp [keepSeg, h.1, h.2.1]

theorem filter_keepSeg_all (l : List (List Char)) (h : ∀ s ∈ l, keepSeg s = true) :
    l.filter keepSeg = l :=
  List.filter_eq_self.mpr h

theorem pnormalize_ne_empty (raw : String) : pnormalize raw ≠ "" := by
  rw [pnormalize]
  by_cases hraw : raw.data = []
  · rw [if_pos hraw]
    intro h
    exact absurd (congrArg String.data h) (by simp [mkStr])
  · rw [if_neg hraw, assembleNorm]
    by_cases hb : interSegsC '/'
        (normSegs (!decide (raw.data.head? = some '/')) (splitSegsC '/' raw.data)) = []
    · rw [if_pos hb]
      by_cases h1 : (raw.data.head? = some '/' : Bool) = true
      · rw [if_pos h1]
        intro h
        exact absurd (congrArg String.data h) (by simp [mkStr])
      · rw [if_neg h1]
        by_cases h2 : (raw.data.getLast? = some '/' : Bool) = true
        · rw [if_pos h2]
          intro h
          exact absurd (congrArg String.data h) (by simp [mkStr])
        · rw [if_neg h2]
          intro h
          exact absurd (congrArg String.data h) (by simp [mkStr])
    · rw [if_neg hb]
      intro h
      have := congrArg String.data h
      simp only [mkStr] at this
      exact hb (by
        rcases List.append_eq_nil.mp (List.append_eq_nil.mp this).1 with ⟨-, h2⟩
        exact h2)

/-- The central containment computation: joining a clean absolute workspace
root with any normalized name that passes the rejection guard yields
`root ++ "/" ++ suffix`, and the suffix is non-empty whenever the raw entry
name has no trailing separator. -/
theorem pjoin_shape (td : String) (tds : List (List Char)) (htds : tds ≠ [])
    (hclean : ∀ s ∈ tds, cleanSeg s) (htdd : td.data = '/' :: interSegsC '/' tds)
    (raw : String) (hguard : ¬ unsafeNormGuard (pnormalize raw)) :
    ∃ cs, (pjoin td (pnormalize raw)).data = td.data ++ '/' :: cs ∧
      (raw.data.getLast? ≠ some '/' → cs ≠ []) := by
  have hfree : ∀ s ∈ tds, '/' ∉ s := fun s hs => (hclean s hs).2.2.2
  have hkeep : ∀ s ∈ tds, keepSeg s = true := fun s hs => keepSeg_of_cleanSeg s (hclean s hs)
  have hnddtds : ∀ s ∈ tds, s ≠ dd := fun s hs => (hclean s hs).2.2.1
  have hn0 : (pnormalize raw).data ≠ [] :=
    fun h => pnormalize_ne_empty raw (String.ext (by simpa using h))
  have htd0 : td.data ≠ [] := by simp [htdd]
  have hparts : [td, pnormalize raw].filter (fun p => p.data ≠ []) = [td, pnormalize raw] := by
    simp [List.filter_cons, htd0, hn0]
  have hjoin : pjoin td (pnormalize raw) =
      pnormalize (td ++ "/" ++ pnormalize raw) := by
    rw [pjoin, hparts, if_neg (by simp)]
    rfl
  have hJdata : (td ++ "/" ++ pnormalize raw).data =
      '/' :: (interSegsC '/' tds ++ '/' :: (pnormalize raw).data) := by
    simp [htdd]
  have hsplitJ : splitSegsC '/' ((td ++ "/" ++ pnormalize raw).data) =
      [] :: (tds ++ splitSegsC '/' (pnormalize raw).data) := by
    rw [hJdata, splitSegsC, if_pos rfl,
      splitSegsC_interSegsC_append '/' tds htds hfree]
  have habsJ : ((td ++ "/" ++ pnormalize raw).data.head? = some '/' : Bool) = true := by
    simp [hJdata]
  have hJ0 : (td ++ "/" ++ pnormalize raw).data ≠ [] := by
    simp [hJdata]
  have hpn : pjoin td (pnormalize raw) =
      assembleNorm true ((td ++ "/" ++ pnormalize raw).data.getLast? = some '/')
        (interSegsC '/' (normSegs false
          ([] :: (tds ++ splitSegsC '/' (pnormalize raw).data)))) := by
    rw [hjoin, pnormalize, if_neg hJ0, habsJ, hsplitJ]
    rfl
  rcases pnormalize_cases raw hguard with ⟨hdot, htrailraw⟩ | ⟨ns, hns0, hnsprops, hndata⟩
  · -- the normalized name is "./": the join resolves to the root plus a
    -- trailing separator
    have hdotdata : (pnormalize raw).data = ['.', '/'] := by rw [hdot]
    have hsplitdot : splitSegsC '/' (pnormalize raw).data = [['.'], []] := by
      rw [hdotdata]; rfl
    have hnorm : normSegs false ([] :: (tds ++ [['.'], []])) = tds := by
      rw [normSegs_no_dd]
      · rw [List.filter_cons, List.filter_append]
        rw [filter_keepSeg_all tds hkeep]
        simp [keepSeg_nil, keepSeg_dot]
      · intro s hs
        rcases List.mem_cons.mp hs with rfl | hs2
        · simp [dd]
        · rcases List.mem_append.mp hs2 with hs3 | hs3
          · exact hnddtds s hs3
          · rcases List.mem_cons.mp hs3 with rfl | hs4
            · simp [dd]
            · rcases List.mem_cons.mp hs4 with rfl | hs5
              · simp [dd]
              · simp at hs5
    have hlastJ : (td ++ "/" ++ pnormalize raw).data.getLast? = some '/' := by
      rw [hJdata, hdotdata,
        show '/' :: (interSegsC '/' tds ++ '/' :: ['.', '/']) =
          ('/' :: (interSegsC '/' tds ++ ['/', '.'])) ++ ['/'] by simp]
      exact List.getLast?_concat _
    have hTD0 : interSegsC '/' tds ≠ [] := interSegsC_ne_nil '/' tds htds hkeep
    refine ⟨[], ?_, fun hnt => absurd htrailraw hnt⟩
    rw [hpn, hsplitdot, hnorm, assembleNorm_data true _ _ hTD0]
    simp [hlastJ, htdd, hdotdata]
    rw [show ('/' :: (interSegsC '/' tds ++ ['/', '.', '/'])) =
      ('/' :: (interSegsC '/' tds ++ ['/', '.'])) ++ ['/'] by simp]
    exact List.getLast?_concat _
  · -- general case: the normalized name contributes its own segments
    have hnsfree : ∀ s ∈ ns, '/' ∉ s := fun s hs => (hnsprops s hs).2.2
    have hnskeep : ∀ s ∈ ns, keepSeg s = true := fun s hs => (hnsprops s hs).1
    have hnsdd : ∀ s ∈ ns, s ≠ dd := fun s hs => (hnsprops s hs).2.1
    have hINS0 : interSegsC '/' ns ≠ [] := interSegsC_ne_nil '/' ns hns0 hnskeep
    have hnodd : ∀ s ∈ ([] : List Char) :: (tds ++ (ns ++ [[]])), s ≠ dd := by
      intro s hs
      rcases List.mem_cons.mp hs with rfl | hs2
      · simp [dd]
      · rcases List.mem_append.mp hs2 with hs3 | hs3
        · exact hnddtds s hs3
        · rcases List.mem_append.mp hs3 with hs4 | hs4
          · exact hnsdd s hs4
          · rcases List.mem_cons.mp hs4 with rfl | hs5
            · simp [dd]
            · simp at hs5
    have hnodd2 : ∀ s ∈ ([] : List Char) :: (tds ++ ns), s ≠ dd := by
      intro s hs
      rcases List.mem_cons.mp hs with rfl | hs2
      · simp [dd]
      · rcases List.mem_append.mp hs2 with hs3 | hs3
        · exact hnddtds s hs3
        · exact hnsdd s hs3
    by_cases htr : raw.data.getLast? = some '/'
    · -- trailing separator on the raw name
      have hsplitn : splitSegsC '/' (pnormalize raw).data = ns ++ [[]] := by
        rw [hndata, if_pos htr,
          show (interSegsC '/' ns ++ ['/']) = interSegsC '/' ns ++ '/' :: [] from rfl,
          splitSegsC_interSegsC_append '/' ns hns0 hnsfree]
        rfl
      have hnorm : normSegs false ([] :: (tds ++ (ns ++ [[]]))) = tds ++ ns := by
        rw [normSegs_no_dd false _ hnodd]
        rw [List.filter_cons, List.filter_append, List.filter_append]
        rw [filter_keepSeg_all tds hkeep, filter_keepSeg_all ns hnskeep]
        simp [keepSeg_nil]
      have hbody : interSegsC '/' (tds ++ ns) =
          interSegsC '/' tds ++ '/' :: interSegsC '/' ns :=
        interSegsC_append '/' tds ns htds hns0
      have hbody0 : interSegsC '/' (tds ++ ns) ≠ [] := by
        rw [hbody]; simp
      refine ⟨interSegsC '/' ns ++
        (if ((td ++ "/" ++ pnormalize raw).data.getLast? = some '/' : Bool) = true
          then ['/'] else []), ?_, fun _ => by simp [hINS0]⟩
      rw [hpn, hsplitn, hnorm, assembleNorm_data true _ _ hbody0, hbody, htdd]
      simp
    · -- no trailing separator on the raw name
      have hsplitn : splitSegsC '/' (pnormalize raw).data = ns := by
        rw [hndata, if_neg htr, List.append_nil]
        exact splitSegsC_interSegsC '/' ns hns0 hnsfree
      have hnorm : normSegs false ([] :: (tds ++ ns)) = tds ++ ns := by
        rw [normSegs_no_dd false _ hnodd2]
        rw [List.filter_cons, List.filter_append]
        rw [filter_keepSeg_all tds hkeep, filter_keepSeg_all ns hnskeep]
        simp [keepSeg_nil]
      have hbody : interSegsC '/' (tds ++ ns) =
          interSegsC '/' tds ++ '/' :: interSegsC '/' ns :=
        interSegsC_append '/' tds ns htds hns0
      have hbody0 : interSegsC '/' (tds ++ ns) ≠ [] := by
        rw [hbody]; simp
      refine ⟨interSegsC '/' ns ++
        (if ((td ++ "/" ++ pnormalize raw).data.getLast? = some '/' : Bool) = true
          then ['/'] else []), ?_, fun _ => by simp [hINS0]⟩
      rw [hpn, hsplitn, hnorm, assembleNorm_data true _ _ hbody0, hbody, htdd]
      simp

/-- Joining a clean workspace root with a normalized name that passed the
rejection guard always yields a path whose character sequence starts with
that of the root. -/
theorem guard_pass_containment (td : String) (hclean : cleanAbsDir td) (raw : String)
    (hguard : ¬ unsafeNormGuard (pnormalize raw)) :
    strStartsWith (pjoin td (pnormalize raw)) td = true := by
  obtain ⟨tds, htds, hcl, htdd⟩ := hclean
  obtain ⟨cs, hcs, -⟩ := pjoin_shape td tds htds hcl htdd raw hguard
  rw [strStartsWith, hcs]
  exact leadChars_append _ _

/-- A file entry (no trailing separator on its raw name) that passes the
guard is written strictly below the workspace root. -/
theorem guard_pass_file_inside (td : String) (hclean : cleanAbsDir td) (raw : String)
    (hguard : ¬ unsafeNormGuard (pnormalize raw))
    (hnotrail : raw.data.getLast? ≠ some '/') :
    ∃ cs, cs ≠ [] ∧ (pjoin td (pnormalize raw)).data = td.data ++ '/' :: cs := by
  obtain ⟨tds, htds, hcl, htdd⟩ := hclean
  obtain ⟨cs, hcs, hne⟩ := pjoin_shape td tds htds hcl htdd raw hguard
  exact ⟨cs, hne hnotrail, hcs⟩

theorem extractEntries_error_eq_unsafePath (tempDir : String) (es : List Entry)
    (err : ArchiveError) (h : extractEntries tempDir es = .error err) :
    err = .unsafePath := by
  induction es with
  | nil => simp [extractEntries] at h
  | cons e rest ih =>
    rw [extractEntries] at h
    by_cases hg : unsafeNormGuard (pnormalize e.entryName)
    · rw [if_pos hg] at h
      cases h
      rfl
    · rw [if_neg hg] at h
      by_cases hc : strStartsWith (pjoin tempDir (pnormalize e.entryName)) tempDir = true
      · rw [if_pos hc] at h
        by_cases hd : e.isDirectory
        · rw [if_pos hd] at h
          exact ih h
        · rw [if_neg hd] at h
          cases hrec : extractEntries tempDir rest with
          | ok others => rw [hrec] at h; simp at h
          | error err' =>
            rw [hrec] at h
            simp only [] at h
            cases h
            exact ih hrec
      · rw [if_neg hc] at h
        cases h
        rfl

/-- C5: the deterministic input guards.  The model sequences the checks in
source order, so an oversized archive is rejected before its entry list is
ever consulted (the size check runs before any decompression work), a
zero-byte archive is rejected whatever its entries, and an entry-less
archive that passes both size checks is rejected with the no-files error. -/
theorem c5_input_guards (a : Archive) (tempDir : String) :
    (withExtractedArchive a tempDir = .error .emptyArchive ↔ a.size = 0)
    ∧ (withExtractedArchive a tempDir = .error .tooLarge ↔ a.size > MAX_ARCHIVE_BYTES)
    ∧ (withExtractedArchive a tempDir = .error .noFiles ↔
        a.size ≠ 0 ∧ a.size ≤ MAX_ARCHIVE_BYTES ∧ a.entries = []) := by
  unfold withExtractedArchive
  by_cases h0 : a.size = 0
  · simp [h0, MAX_ARCHIVE_BYTES]
  · by_cases h1 : a.size > MAX_ARCHIVE_BYTES
    · simp [h0, h1]
    · by_cases h2 : a.entries.length = 0
      · simp [h0, h1, h2, List.length_eq_zero.mp h2, le_of_not_lt h1]
      · rw [if_neg h0, if_neg h1, if_neg h2]
        refine ⟨?_, ?_, ?_⟩
        · constructor
          · intro h
            exact absurd (extractEntries_error_eq_unsafePath _ _ _ h) (by simp)
          · intro h
            exact absurd h h0
        · constructor
          · intro h
            exact absurd (extractEntries_error_eq_unsafePath _ _ _ h) (by simp)
          · intro h
            exact absurd h h1
        · constructor
          · intro h
            exact absurd (extractEntries_error_eq_unsafePath _ _ _ h) (by simp)
          · rintro ⟨-, -, h⟩
            exact absurd (by simp [h]) h2

theorem extractEntries_unsafe_iff (td : String) (hclean : cleanAbsDir td)
    (es : List Entry) :
    extractEntries td es = .error .unsafePath ↔
      ∃ e ∈ es, unsafeNormGuard (pnormalize e.entryName) := by
  induction es with
  | nil => simp [extractEntries]
  | cons e rest ih =>
    rw [extractEntries]
    by_cases hg : unsafeNormGuard (pnormalize e.entryName)
    · rw [if_pos hg]
      simp only [true_iff]
      exact ⟨e, List.mem_cons_self e rest, hg⟩
    · rw [if_neg hg, if_pos (guard_pass_containment td hclean e.entryName hg)]
      have hlift : (∃ x ∈ rest, unsafeNormGuard (pnormalize x.entryName)) ↔
          ∃ x ∈ e :: rest, unsafeNormGuard (pnormalize x.entryName) := by
        constructor
        · rintro ⟨x, hx, hbx⟩
          exact ⟨x, List.mem_cons.mpr (Or.inr hx), hbx⟩
        · rintro ⟨x, hx, hbx⟩
          rcases List.mem_cons.mp hx with rfl | hx'
          · exact absurd hbx hg
          · exact ⟨x, hx', hbx⟩
      by_cases hd : e.isDirectory
      · rw [if_pos hd, ih]
        exact hlift
      · rw [if_neg hd]
        cases hrec : extractEntries td rest with
        | error err =>
          rw [hrec] at ih
          simp only []
          exact ih.trans hlift
        | ok others =>
          rw [hrec] at ih
          simp only []
          constructor
          · intro h
            cases h
          · intro h
            exact absurd (hlift.mpr h) (by simpa using ih)

theorem extractEntries_ok_inside (td : String) (hclean : cleanAbsDir td)
    (es : List Entry) (out : List (String × Bytes))
    (h : extractEntries td es = .ok out) :
    ∀ pd ∈ out, ∃ cs, cs ≠ [] ∧ pd.1.data = td.data ++ '/' :: cs := by
  induction es generalizing out with
  | nil =>
    rw [extractEntries] at h
    cases h
    intro pd hpd
    simp at hpd
  | cons e rest ih =>
    rw [extractEntries] at h
    by_cases hg : unsafeNormGuard (pnormalize e.entryName)
    · rw [if_pos hg] at h
      cases h
    · rw [if_neg hg, if_pos (guard_pass_containment td hclean e.entryName hg)] at h
      by_cases hd : e.isDirectory
      · rw [if_pos hd] at h
        exact ih out h
      · rw [if_neg hd] at h
        cases hrec : extractEntries td rest with
        | error err =>
          rw [hrec] at h
          simp only [] at h
          cases h
        | ok others =>
          rw [hrec] at h
          simp only [] at h
          cases h
          intro pd hpd
          rcases List.mem_cons.mp hpd with rfl | hpd'
          · have hnt : e.entryName.data.getLast? ≠ some '/' := by
              intro hlast
              exact hd (by simp [Entry.isDirectory, hlast])
            obtain ⟨cs, hcs0, hcs⟩ :=
              guard_pass_file_inside td hclean e.entryName hg hnt
            exact ⟨cs, hcs0, hcs⟩
          · exact ih others hrec pd hpd'

/-- The per-entry rejection condition as the claim states it (with the
parent-traversal test read as a string prefix test, which is what the code
performs): the normalized path is empty, is the current-directory marker,
starts with the two characters `..`, is absolute, or the joined output path
does not start with the workspace root. -/
def unsafeEntryCond (td : String) (name : String) : Prop :=
  pnormalize name = "" ∨ pnormalize name = "." ∨
    strStartsWith (pnormalize name) ".." = true ∨
    isAbsolute (pnormalize name) = true ∨
    ¬ strStartsWith (pjoin td (pnormalize name)) td = true

instance (td name : String) : Decidable (unsafeEntryCond td name) := by
  unfold unsafeEntryCond
  infer_instance

/-- The per-entry rejection condition as the specification words it, with
"begins with a parent-directory traversal segment" read literally: the first
path segment is `..`, that is, the normalized path is `..` or starts with
`../`. -/
def specUnsafeCond (td : String) (name : String) : Prop :=
  pnormalize name = "" ∨ pnormalize name = "." ∨
    (pnormalize name = ".." ∨ strStartsWith (pnormalize name) "../" = true) ∨
    isAbsolute (pnormalize name) = true ∨
    ¬ strStartsWith (pjoin td (pnormalize name)) td = true

instance (td name : String) : Decidable (specUnsafeCond td name) := by
  unfold specUnsafeCond
  infer_instance

theorem unsafeEntryCond_iff_guard (td : String) (hclean : cleanAbsDir td)
    (name : String) :
    unsafeEntryCond td name ↔ unsafeNormGuard (pnormalize name) := by
  constructor
  · intro h
    rcases h with h | h | h | h | h
    · exact Or.inl h
    · exact Or.inr (Or.inl h)
    · exact Or.inr (Or.inr (Or.inl h))
    · exact Or.inr (Or.inr (Or.inr h))
    · by_contra hg
      exact h (guard_pass_containment td hclean name hg)
  · intro h
    rcases h with h | h | h | h
    · exact Or.inl h
    · exact Or.inr (Or.inl h)
    · exact Or.inr (Or.inr (Or.inl h))
    · exact Or.inr (Or.inr (Or.inr (Or.inl h)))

/-- C10: for every archive entry that passes the first rejection guard,
joining the workspace root (a clean absolute directory, as `fs.mkdtemp`
returns) with the normalized entry name yields a path that starts with the
workspace root, so the second `unsafe path` branch of the extraction loop
can never fire. -/
theorem c10_containment_check_redundant (td raw : String) (hclean : cleanAbsDir td)
    (hguard : ¬ unsafeNormGuard (pnormalize raw)) :
    strStartsWith (pjoin td (pnormalize raw)) td = true :=
  guard_pass_containment td hclean raw hguard

theorem c10_containment_check_redundant_witness :
    strStartsWith (pjoin "/tmp/ws" (pnormalize "a/b.txt")) "/tmp/ws" = true :=
  c10_containment_check_redundant "/tmp/ws" "a/b.txt"
    ⟨[['t', 'm', 'p'], ['w', 's']], by decide, by decide, by decide⟩
    (by decide)

theorem startsWith_dd_of_ddslash (n : String) (h : strStartsWith n "../" = true) :
    strStartsWith n ".." = true := by
  rw [strStartsWith] at h ⊢
  obtain ⟨t, ht⟩ := (leadChars_iff_exists _ _).mp h
  apply (leadChars_iff_exists _ _).mpr
  refine ⟨'/' :: t, ?_⟩
  rw [← ht]
  rfl

/-- C1 (amended): reading "begins with a parent-directory traversal segment"
as the string-prefix test `normalized.startsWith("..")` that the code
performs, extraction fails with the `unsafe path` error exactly when the
archive passes the size guards and some entry satisfies the rejection
condition; every file written from a successfully extracted archive lands
strictly inside the workspace; and any entry whose normalized path starts
with `../` or is absolute forces the failure. -/
theorem c1_unsafe_path_guard (td : String) (a : Archive) (hclean : cleanAbsDir td) :
    (withExtractedArchive a td = .error .unsafePath ↔
      a.size ≠ 0 ∧ a.size ≤ MAX_ARCHIVE_BYTES ∧
        ∃ e ∈ a.entries, unsafeEntryCond td e.entryName)
    ∧ (∀ out, withExtractedArchive a td = .ok out →
        ∀ pd ∈ out, strStartsWith pd.1 (td ++ "/") = true ∧ pd.1 ≠ td ++ "/")
    ∧ (∀ e ∈ a.entries,
        (strStartsWith (pnormalize e.entryName) "../" = true ∨
          isAbsolute (pnormalize e.entryName) = true) →
        a.size ≠ 0 → a.size ≤ MAX_ARCHIVE_BYTES →
        withExtractedArchive a td = .error .unsafePath) := by
  have hiff : withExtractedArchive a td = .error .unsafePath ↔
      a.size ≠ 0 ∧ a.size ≤ MAX_ARCHIVE_BYTES ∧
        ∃ e ∈ a.entries, unsafeEntryCond td e.entryName := by
    unfold withExtractedArchive
    by_cases h0 : a.size = 0
    · simp [h0]
    · by_cases h1 : a.size > MAX_ARCHIVE_BYTES
      · rw [if_neg h0, if_pos h1]
        simp [h0, not_le.mpr h1]
      · rw [if_neg h0, if_neg h1]
        by_cases h2 : a.entries.length = 0
        · rw [if_pos h2]
          rw [List.length_eq_zero] at h2
          simp [h2]
        · rw [if_neg h2, extractEntries_unsafe_iff td hclean]
          constructor
          · rintro ⟨e, he, hg⟩
            exact ⟨h0, le_of_not_lt h1, e, he,
              (unsafeEntryCond_iff_guard td hclean e.entryName).mpr hg⟩
          · rintro ⟨-, -, e, he, hc⟩
            exact ⟨e, he, (unsafeEntryCond_iff_guard td hclean e.entryName).mp hc⟩
  refine ⟨hiff, ?_, ?_⟩
  · intro out hout pd hpd
    have hok : extractEntries td a.entries = .ok out := by
      unfold withExtractedArchive at hout
      by_cases h0 : a.size = 0
      · rw [if_pos h0] at hout
        cases hout
      · by_cases h1 : a.size > MAX_ARCHIVE_BYTES
        · rw [if_neg h0, if_pos h1] at hout
          cases hout
        · by_cases h2 : a.entries.length = 0
          · rw [if_neg h0, if_neg h1, if_pos h2] at hout
            cases hout
          · rw [if_neg h0, if_neg h1, if_neg h2] at hout
            exact hout
    obtain ⟨cs, hcs0, hcs⟩ := extractEntries_ok_inside td hclean a.entries out hok pd hpd
    constructor
    · rw [strStartsWith, String.data_append, hcs]
      rw [show (("/" : String)).data = ['/'] from rfl]
      rw [show td.data ++ '/' :: cs = (td.data ++ ['/']) ++ cs by simp]
      exact leadChars_append _ _
    · intro heq
      have hdata := congrArg String.data heq
      rw [hcs, String.data_append, show (("/" : String)).data = ['/'] from rfl] at hdata
      have h2 := List.append_cancel_left hdata
      cases h2
      exact hcs0 rfl
  · intro e he hcond h0 h1
    refine hiff.mpr ⟨h0, h1, e, he, ?_⟩
    rcases hcond with hc | hc
    · exact Or.inr (Or.inr (Or.inl (startsWith_dd_of_ddslash _ hc)))
    · exact Or.inr (Or.inr (Or.inr (Or.inl hc)))

theorem c1_unsafe_path_guard_witness :
    withExtractedArchive ⟨3, [⟨"../x", [1]⟩]⟩ "/tmp/ws" = .error .unsafePath :=
  (c1_unsafe_path_guard "/tmp/ws" ⟨3, [⟨"../x", [1]⟩]⟩
      ⟨[['t', 'm', 'p'], ['w', 's']], by decide, by decide, by decide⟩).1.mpr
    ⟨by decide, by decide, ⟨"../x", [1]⟩, by decide, by decide⟩

/-- C1 counterexample: the entry name `..foo` normalizes to itself; its
first segment is `..foo`, not a parent-directory traversal segment, it is
not absolute, and its output path lies inside the workspace, yet extraction
fails with the `unsafe path` error because the code tests the string prefix
`..`. -/
theorem c1_counterexample :
    withExtractedArchive ⟨3, [⟨"..foo", [1]⟩]⟩ "/tmp/ws" = .error .unsafePath ∧
      ¬ specUnsafeCond "/tmp/ws" "..foo" := by
  constructor
  · rfl
  · decide

/-! ### Workspace analysis: classification, line counting, aggregation

The functions below embed the handler bodies of the analyzer, which run on the
extracted workspace.  A workspace file is presented by its `readdir` path
segments below the workspace root (the walk `collectFiles` yields full
paths built by joining those names) together with its byte content, `none`
standing for a file whose read fails.  They are parameterized by the host
path separator, since the source uses the platform `node:path` module. -/

/-- A regular file found by the workspace walk. -/
structure WFile where
  segs : List String
  content : Option Bytes
deriving DecidableEq, Repr

/-- `isBinaryFile`: sniff the first 2048 bytes; the file is binary when the
prefix holds a null byte; a read failure classifies the file as binary. -/
def isBinaryFile (f : WFile) : Bool :=
  match f.content with
  | none => true
  | some bs => (bs.take BINARY_SNIFF_LENGTH).contains 0

/-- `countLinesInFile`: a failed read yields 0; empty content yields 0;
otherwise one plus the number of `content.match(/\n/g)` matches (that call
returns null when there is no newline, counted as 0). -/
def countLinesInFile (content : Option Bytes) : Nat :=
  match content with
  | none => 0
  | some bs =>
    if bs.length = 0 then 0
    else
      (if bs.filter (fun b => b == 10) = [] then 0
        else (bs.filter (fun b => b == 10)).length) + 1

/-- `path.extname(filePath).toLowerCase()`: the extension of the basename — its last `readdir` segment — lowercased. -/
def wext (f : WFile) : String :=
  strToLower (mkStr (extnameSeg (f.segs.getLastD "").data))

/-- The full path `collectFiles` builds by repeatedly joining `readdir`
names onto the root. -/
def filePathOf (sep : Char) (root : String) (f : WFile) : String :=
  mkStr (root.data ++ sep :: interSegsC sep (f.segs.map String.data))

/-- Model of node `path.relative(root, fp)` in the only case the pipeline
exercises (`fp` strictly below `root`): drop the `root ++ sep` lead. -/
def relModel (sep : Char) (root fp : String) : String :=
  if leadChars (root.data ++ [sep]) fp.data = true then
    mkStr (fp.data.drop (root.data.length + 1))
  else fp

/-- Model of node `path.basename`: the last separator-delimited segment. -/
def basenameOf (sep : Char) (fp : String) : String :=
  mkStr ((splitSegsC sep fp.data).getLastD [])

/-- `path.relative(root, filePath) || path.basename(filePath)`. -/
def reportedPath (sep : Char) (root : String) (f : WFile) : String :=
  if relModel sep root (filePathOf sep root f) = "" then
    basenameOf sep (filePathOf sep root f)
  else relModel sep root (filePathOf sep root f)

/-- One reported entry of the top-files list. -/
structure TopFile where
  path : String
  lines : Nat
deriving DecidableEq, Repr

/-- The `CountLinesResult` record; the two extension maps are association
lists in their JavaScript object insertion order. -/
structure CountLinesResult where
  total_files : Nat
  total_lines : Nat
  line_counts_by_ext : List (String × Nat)
  file_counts_by_ext : List (String × Nat)
  top_files : List TopFile
deriving DecidableEq, Repr

/-- `map.set(key, (map.get(key) ?? 0) + v)` on an insertion-ordered map. -/
def bump : List (String × Nat) → String → Nat → List (String × Nat)
  | [], k, v => [(k, v)]
  | (k', v') :: rest, k, v =>
    if k' = k then (k', v' + v) :: rest else (k', v') :: bump rest k v

/-- The running state of the counting loop. -/
structure AggState where
  lineCountsByExt : List (String × Nat)
  fileCountsByExt : List (String × Nat)
  topFiles : List TopFile
  totalLines : Nat
  totalFiles : Nat

/-- A file participates when its lowercased extension is selected and it is
not classified as binary (the two `continue` guards of the loop). -/
def includeFile (allowed : List String) (f : WFile) : Bool :=
  allowed.contains (wext f) && !(isBinaryFile f)

/-- The body of the counting loop for one file. -/
def aggStep (sep : Char) (root : String) (allowed : List String)
    (st : AggState) (f : WFile) : AggState :=
  if includeFile allowed f then
    { lineCountsByExt := bump st.lineCountsByExt (wext f) (countLinesInFile f.content)
      fileCountsByExt := bump st.fileCountsByExt (wext f) 1
      topFiles := st.topFiles ++ [⟨reportedPath sep root f, countLinesInFile f.content⟩]
      totalLines := st.totalLines + countLinesInFile f.content
      totalFiles := st.totalFiles + 1 }
  else st

/-- The handler body of `countLinesFromArchive`: fold the loop over the
walked files, then sort the two maps by descending value and the top-files
list by descending line count (stable sorts), truncating the latter. -/
def countLinesWorkspace (sep : Char) (root : String) (files : List WFile)
    (selectedExtensions : List String) : CountLinesResult :=
  let allowed := selectedExtensions.map strToLower
  let st := files.foldl (aggStep sep root allowed) ⟨[], [], [], 0, 0⟩
  { total_files := st.totalFiles
    total_lines := st.totalLines
    line_counts_by_ext := sortByDesc Prod.snd st.lineCountsByExt
    file_counts_by_ext := sortByDesc Prod.snd st.fileCountsByExt
    top_files := (sortByDesc TopFile.lines st.topFiles).take TOP_FILE_LIMIT }

/-- `countLinesFromArchive`: the selected-extension guard, then extraction,
then the workspace aggregation (`files` is the walk of the extracted
workspace, in `collectFiles` traversal order). -/
def countLinesFromArchive (archive : Archive) (tempDir : String)
    (files : List WFile) (selectedExtensions : List String) :
    Except ArchiveError CountLinesResult :=
  if selectedExtensions.length = 0 then .error .noExtensionsSelected
  else
    match withExtractedArchive archive tempDir with
    | .error e => .error e
    | .ok _ => .ok (countLinesWorkspace '/' tempDir files selectedExtensions)

/-- Stable insertion for the extension sort, driven by the comparator the
source hands to `Array.prototype.sort`: `le a b` stands for
`a.localeCompare(b) <= 0`. -/
def insertStrBy (le : String → String → Bool) (x : String) : List String → List String
  | [] => [x]
  | y :: ys => if le x y then x :: y :: ys else y :: insertStrBy le x ys

/-- The extension sort `Array.from(set).sort((a, b) => a.localeCompare(b))`:
a stable sort driven by the `localeCompare` comparator.  That comparator is
the collation of the host default locale (ICU data), which is outside the
program text — like the path separator of the platform `path` module — so
it is a parameter of the model. -/
def sortStrBy (le : String → String → Bool) : List String → List String
  | [] => []
  | x :: xs => insertStrBy le x (sortStrBy le xs)

/-- One step of the scan loop: skip an empty extension, skip binary files,
then `Set.add` (keep first insertion, drop duplicates). -/
def scanStep (acc : List String) (f : WFile) : List String :=
  if wext f = "" then acc
  else if isBinaryFile f then acc
  else if wext f ∈ acc then acc else acc ++ [wext f]

/-- The handler body of `scanExtensionsFromArchive`, with the
`localeCompare` comparator as a parameter. -/
def scanExtensionsWorkspace (lcLe : String → String → Bool)
    (files : List WFile) : List String :=
  sortStrBy lcLe (files.foldl scanStep [])

/-- `scanExtensionsFromArchive`: extraction, then the scan of the walked
workspace files. -/
def scanExtensionsFromArchive (lcLe : String → String → Bool)
    (archive : Archive) (tempDir : String)
    (files : List WFile) : Except ArchiveError (List String) :=
  match withExtractedArchive archive tempDir with
  | .error e => .error e
  | .ok _ => .ok (scanExtensionsWorkspace lcLe files)

/-- Primary weight class of an ASCII character under the root collation
that backs `String.prototype.localeCompare` in node (full ICU data, default
locale): whitespace, then punctuation and symbols — the tilde among them —
then digits, then letters. -/
def localePrimary (c : Char) : Nat :=
  if c = ' ' then 0
  else if c.isDigit then 2
  else if c.isAlpha then 3
  else 1

/-- Lexicographic comparison of weight-key sequences: earlier entry classes
decide first, code points break ties inside a class. -/
def lexLeBy : List (Nat × Nat) → List (Nat × Nat) → Bool
  | [], _ => true
  | _ :: _, [] => false
  | x :: xs, y :: ys =>
    if x.1 < y.1 then true
    else if y.1 < x.1 then false
    else if x.2 < y.2 then true
    else if y.2 < x.2 then false
    else lexLeBy xs ys

/-- Modelled from the ICU root collation behind `String.prototype.localeCompare`
(node with full ICU data, default locale), restricted to ASCII: characters
compare by primary weight class first — punctuation and symbols before
digits before letters — and by code point inside a class (the full root
collation refines the inside-class order further; the class ordering is the
only part the comparisons below rely on).  `localeLeFrag a b` stands for
`a.localeCompare(b) <= 0`. -/
def localeLeFrag (a b : String) : Bool :=
  lexLeBy (a.data.map (fun c => (localePrimary c, c.toNat)))
    (b.data.map (fun c => (localePrimary c, c.toNat)))

example : countLinesInFile (some [120, 61, 49, 10, 121, 61, 50, 10, 122, 61, 51]) = 3 := by
  decide
example : countLinesInFile (some [104, 10]) = 2 := by decide
example : countLinesInFile (some []) = 0 := by decide
example : wext ⟨["sub", "A.TxT"], some []⟩ = ".txt" := by decide
example : isBinaryFile ⟨["b.bin"], some [0, 1]⟩ = true := by decide
example : scanExtensionsWorkspace localeLeFrag
    [⟨["a.txt"], some [104, 10]⟩, ⟨["b.bin"], some [0, 1]⟩] = [".txt"] := by decide
example : localeLeFrag ".c~" ".cpp" = true := by decide
example : localeLeFrag ".cpp" ".c~" = false := by decide
example :
    (countLinesWorkspace '/' "/ws" [⟨["a.py"], some [120, 61, 49, 10, 121, 61, 50, 10, 122, 61, 51]⟩]
      [".py"]) =
    ⟨1, 3, [(".py", 3)], [(".py", 1)], [⟨"a.py", 3⟩]⟩ := by decide

/-- The 250-file scenario of the specification: distinct single-line text
files sharing the selected extension `.t`. -/
def wfile250 (i : Nat) : WFile :=
  ⟨[mkStr [Char.ofNat (97 + i / 16), Char.ofNat (97 + i % 16), '.', 't']], some [120]⟩

/-- A workspace of 250 such files. -/
def wksp250 : List WFile := (List.range 250).map wfile250

theorem countLinesInFile_none : countLinesInFile none = 0 := rfl

theorem countLinesInFile_nil : countLinesInFile (some []) = 0 := rfl

theorem countLinesInFile_count (bs : Bytes) (h : bs ≠ []) :
    countLinesInFile (some bs) = bs.count 10 + 1 := by
  rw [countLinesInFile]
  rw [if_neg (by simpa using h)]
  have hc : (bs.filter (fun b => b == 10)).length = bs.count 10 := by
    rw [List.count, List.countP_eq_length_filter]
  by_cases hf : bs.filter (fun b => b == 10) = []
  · rw [if_pos hf]
    rw [hf] at hc
    simp at hc
    omega
  · rw [if_neg hf, hc]

/-- C2: line counting.  A read (or decode) failure yields 0, empty content
yields 0, and non-empty content counts one more line than it has newline
bytes — with no special case for a trailing newline.  The counter never
fails, so a bad file cannot abort a request. -/
theorem c2_line_count_rule (bs : Bytes) :
    countLinesInFile none = 0 ∧
    countLinesInFile (some []) = 0 ∧
    (bs ≠ [] → countLinesInFile (some bs) = bs.count 10 + 1) :=
  ⟨countLinesInFile_none, countLinesInFile_nil, countLinesInFile_count bs⟩

theorem c2_line_count_rule_witness :
    countLinesInFile (some [104, 10, 104, 10]) = 3 := by
  have h := (c2_line_count_rule [104, 10, 104, 10]).2.2 (by decide)
  rw [h]
  decide

theorem sum_bump (m : List (String × Nat)) (k : String) (v : Nat) :
    ((bump m k v).map Prod.snd).sum = (m.map Prod.snd).sum + v := by
  induction m with
  | nil => simp [bump]
  | cons kv rest ih =>
    by_cases h : kv.1 = k
    · rw [show (kv :: rest) = ((kv.1, kv.2) :: rest) from rfl, bump, if_pos h]
      simp
      omega
    · rw [show (kv :: rest) = ((kv.1, kv.2) :: rest) from rfl, bump, if_neg h]
      simp [ih]
      omega

/-- The loop invariant behind C3: the running totals always equal the sums
of the running per-extension maps. -/
theorem foldl_agg_invariant (sep : Char) (root : String) (allowed : List String)
    (files : List WFile) (st : AggState)
    (h1 : st.totalFiles = (st.fileCountsByExt.map Prod.snd).sum)
    (h2 : st.totalLines = (st.lineCountsByExt.map Prod.snd).sum) :
    (files.foldl (aggStep sep root allowed) st).totalFiles =
      ((files.foldl (aggStep sep root allowed) st).fileCountsByExt.map Prod.snd).sum ∧
    (files.foldl (aggStep sep root allowed) st).totalLines =
      ((files.foldl (aggStep sep root allowed) st).lineCountsByExt.map Prod.snd).sum := by
  induction files generalizing st with
  | nil => exact ⟨h1, h2⟩
  | cons f rest ih =>
    rw [List.foldl_cons]
    by_cases hincl : includeFile allowed f = true
    · refine ih _ ?_ ?_
      · rw [aggStep, if_pos hincl]
        simp only []
        rw [sum_bump, ← h1]
      · rw [aggStep, if_pos hincl]
        simp only []
        rw [sum_bump, ← h2]
    · rw [aggStep, if_neg hincl]
      exact ih st h1 h2

/-- C3: in every count result the reported totals are consistent with the
per-extension maps: `total_files` is the sum of the `file_counts_by_ext`
values and `total_lines` the sum of the `line_counts_by_ext` values, both
accumulated only over non-binary files whose lowercased extension is
selected. -/
theorem c3_totals_consistent (sep : Char) (root : String) (files : List WFile)
    (sel : List String) (_hsel : sel ≠ []) :
    (countLinesWorkspace sep root files sel).total_files =
      ((countLinesWorkspace sep root files sel).file_counts_by_ext.map Prod.snd).sum ∧
    (countLinesWorkspace sep root files sel).total_lines =
      ((countLinesWorkspace sep root files sel).line_counts_by_ext.map Prod.snd).sum := by
  obtain ⟨hf, hl⟩ := foldl_agg_invariant sep root (sel.map strToLower) files
    ⟨[], [], [], 0, 0⟩ rfl rfl
  constructor
  · rw [countLinesWorkspace]
    simp only []
    rw [sum_map_sortByDesc]
    exact hf
  · rw [countLinesWorkspace]
    simp only []
    rw [sum_map_sortByDesc]
    exact hl

theorem c3_totals_consistent_witness :
    ((countLinesWorkspace '/' "/ws" [⟨["a.txt"], some [104, 10]⟩] [".txt"]).total_files =
      ((countLinesWorkspace '/' "/ws" [⟨["a.txt"], some [104, 10]⟩]
        [".txt"]).file_counts_by_ext.map Prod.snd).sum) ∧
    ((countLinesWorkspace '/' "/ws" [⟨["a.txt"], some [104, 10]⟩] [".txt"]).total_lines =
      ((countLinesWorkspace '/' "/ws" [⟨["a.txt"], some [104, 10]⟩]
        [".txt"]).line_counts_by_ext.map Prod.snd).sum) :=
  c3_totals_consistent '/' "/ws" [⟨["a.txt"], some [104, 10]⟩] [".txt"] (by decide)

/-- The top-files entries in discovery order: one `(relative path, line
count)` record per included file, in walk order. -/
def discoveredTopFiles (sep : Char) (root : String) (allowed : List String)
    (files : List WFile) : List TopFile :=
  (files.filter (includeFile allowed)).map
    (fun f => ⟨reportedPath sep root f, countLinesInFile f.content⟩)

theorem foldl_agg_topFiles (sep : Char) (root : String) (allowed : List String)
    (files : List WFile) (st : AggState) :
    (files.foldl (aggStep sep root allowed) st).topFiles =
      st.topFiles ++ discoveredTopFiles sep root allowed files := by
  induction files generalizing st with
  | nil => simp [discoveredTopFiles]
  | cons f rest ih =>
    rw [List.foldl_cons]
    by_cases hincl : includeFile allowed f = true
    · rw [aggStep, if_pos hincl, ih]
      simp [discoveredTopFiles, List.filter_cons, hincl]
    · rw [aggStep, if_neg hincl, ih]
      simp [discoveredTopFiles, List.filter_cons, hincl]

theorem filter_take_append (p : α → Bool) :
    ∀ (k : Nat) (l : List α), ∃ t, (l.take k).filter p ++ t = l.filter p := by
  intro k l
  induction l generalizing k with
  | nil => exact ⟨[], by simp⟩
  | cons x xs ih =>
    cases k with
    | zero => exact ⟨(x :: xs).filter p, by simp⟩
    | succ k' =>
      obtain ⟨t, ht⟩ := ih k'
      refine ⟨t, ?_⟩
      rw [List.take_succ_cons, List.filter_cons, List.filter_cons]
      by_cases hp : p x
      · rw [if_pos hp, if_pos hp, List.cons_append, ht]
      · rw [if_neg hp, if_neg hp, ht]


theorem top_files_shape (sep : Char) (root : String) (files : List WFile)
    (sel : List String) :
    (countLinesWorkspace sep root files sel).top_files =
      (sortByDesc TopFile.lines
        (discoveredTopFiles sep root (sel.map strToLower) files)).take TOP_FILE_LIMIT := by
  rw [countLinesWorkspace]
  simp only []
  rw [foldl_agg_topFiles]
  rfl

set_option maxRecDepth 10000 in
/-- C4: the top-files list is the stable descending sort (ties keep
discovery order) of the entries of the included files, truncated to the 200-entry
cap: it never exceeds 200 entries, is sorted by descending line count, for
each line count its entries are an initial run of the discovery-ordered
entries with that count, and the scenario from the specification of 250 distinct
single-line files with one selected extension yields exactly 200 entries. -/
theorem c4_top_files_rule (sep : Char) (root : String) (files : List WFile)
    (sel : List String) :
    (countLinesWorkspace sep root files sel).top_files =
      (sortByDesc TopFile.lines
        (discoveredTopFiles sep root (sel.map strToLower) files)).take TOP_FILE_LIMIT
    ∧ (countLinesWorkspace sep root files sel).top_files.length =
        min TOP_FILE_LIMIT (discoveredTopFiles sep root (sel.map strToLower) files).length
    ∧ List.Pairwise (fun a b => b.lines ≤ a.lines)
        (countLinesWorkspace sep root files sel).top_files
    ∧ (∀ n, ∃ t,
        ((countLinesWorkspace sep root files sel).top_files.filter
            (fun a => TopFile.lines a = n)) ++ t =
          (discoveredTopFiles sep root (sel.map strToLower) files).filter
            (fun a => TopFile.lines a = n))
    ∧ (countLinesWorkspace '/' "/ws" wksp250 [".t"]).top_files.length = 200 := by
  have heq := top_files_shape sep root files sel
  refine ⟨heq, ?_, ?_, ?_, ?_⟩
  · rw [heq, List.length_take, length_sortByDesc]
  · rw [heq]
    exact List.Pairwise.sublist (List.take_sublist _ _)
      (pairwise_sortByDesc TopFile.lines _)
  · intro n
    obtain ⟨t, ht⟩ := filter_take_append (fun a => decide (TopFile.lines a = n))
      TOP_FILE_LIMIT
      (sortByDesc TopFile.lines (discoveredTopFiles sep root (sel.map strToLower) files))
    rw [filter_sortByDesc] at ht
    exact ⟨t, by rw [heq]; exact ht⟩
  · decide

theorem mem_insertStrBy (le : String → String → Bool) (x a : String) (l : List String) :
    a ∈ insertStrBy le x l ↔ a = x ∨ a ∈ l := by
  induction l with
  | nil => simp [insertStrBy]
  | cons y ys ih =>
    by_cases h : le x y = true
    · rw [insertStrBy, if_pos h]
      simp
    · rw [insertStrBy, if_neg h]
      simp only [List.mem_cons, ih]
      tauto

theorem mem_sortStrBy (le : String → String → Bool) (a : String) (l : List String) :
    a ∈ sortStrBy le l ↔ a ∈ l := by
  induction l with
  | nil => simp [sortStrBy]
  | cons x xs ih =>
    rw [sortStrBy, mem_insertStrBy]
    simp [ih]

theorem nodup_insertStrBy (le : String → String → Bool) (x : String) (l : List String)
    (hx : x ∉ l) (hl : l.Nodup) : (insertStrBy le x l).Nodup := by
  induction l with
  | nil => simp [insertStrBy]
  | cons y ys ih =>
    rcases hl with - | ⟨hy, hys⟩
    by_cases h : le x y = true
    · rw [insertStrBy, if_pos h]
      refine List.Pairwise.cons ?_ (List.Pairwise.cons hy hys)
      intro b hb
      intro he
      exact hx (he ▸ hb)
    · rw [insertStrBy, if_neg h]
      refine List.Pairwise.cons ?_
        (ih (fun hm => hx (List.mem_cons.mpr (Or.inr hm))) hys)
      intro b hb
      rw [mem_insertStrBy] at hb
      rcases hb with rfl | hb'
      · intro he
        exact hx (he ▸ List.mem_cons_self y ys)
      · exact hy b hb'

theorem nodup_sortStrBy (le : String → String → Bool) (l : List String)
    (hl : l.Nodup) : (sortStrBy le l).Nodup := by
  induction l with
  | nil => simp [sortStrBy]
  | cons x xs ih =>
    rcases hl with - | ⟨hx, hxs⟩
    rw [sortStrBy]
    refine nodup_insertStrBy le x _ ?_ (ih hxs)
    rw [mem_sortStrBy]
    intro hm
    exact (hx x hm) rfl

theorem sorted_insertStrBy (le : String → String → Bool)
    (htot : ∀ a b, le a b = true ∨ le b a = true)
    (htrans : ∀ a b c, le a b = true → le b c = true → le a c = true)
    (x : String) (l : List String)
    (h : List.Pairwise (fun a b : String => le a b = true) l) :
    List.Pairwise (fun a b : String => le a b = true) (insertStrBy le x l) := by
  induction l with
  | nil => simp [insertStrBy]
  | cons y ys ih =>
    rcases h with - | ⟨hy, hys⟩
    by_cases hxy : le x y = true
    · rw [insertStrBy, if_pos hxy]
      refine List.Pairwise.cons ?_ (List.Pairwise.cons hy hys)
      intro b hb
      rcases List.mem_cons.mp hb with rfl | hb'
      · exact hxy
      · exact htrans x y b hxy (hy b hb')
    · rw [insertStrBy, if_neg hxy]
      refine List.Pairwise.cons ?_ (ih hys)
      intro b hb
      rw [mem_insertStrBy] at hb
      rcases hb with rfl | hb'
      · exact (htot _ _).resolve_left hxy
      · exact hy b hb'

theorem sorted_sortStrBy (le : String → String → Bool)
    (htot : ∀ a b, le a b = true ∨ le b a = true)
    (htrans : ∀ a b c, le a b = true → le b c = true → le a c = true)
    (l : List String) :
    List.Pairwise (fun a b : String => le a b = true) (sortStrBy le l) := by
  induction l with
  | nil => simp [sortStrBy]
  | cons x xs ih => exact sorted_insertStrBy le htot htrans x _ ih

theorem mem_foldl_scanStep (files : List WFile) (acc : List String) (x : String) :
    x ∈ files.foldl scanStep acc ↔
      x ∈ acc ∨ ∃ f ∈ files, isBinaryFile f = false ∧ wext f = x ∧ x ≠ "" := by
  induction files generalizing acc with
  | nil => simp
  | cons f rest ih =>
    rw [List.foldl_cons, ih]
    have hstep : x ∈ scanStep acc f ↔
        x ∈ acc ∨ (isBinaryFile f = false ∧ wext f = x ∧ x ≠ "") := by
      rw [scanStep]
      by_cases h1 : wext f = ""
      · rw [if_pos h1]
        constructor
        · exact Or.inl
        · rintro (h | ⟨-, rfl, hne⟩)
          · exact h
          · exact absurd h1 hne
      · rw [if_neg h1]
        by_cases h2 : isBinaryFile f = true
        · rw [if_pos h2]
          constructor
          · exact Or.inl
          · rintro (h | ⟨hb, -, -⟩)
            · exact h
            · rw [h2] at hb
              cases hb
        · rw [if_neg h2]
          by_cases h3 : wext f ∈ acc
          · rw [if_pos h3]
            constructor
            · exact Or.inl
            · rintro (h | ⟨-, rfl, -⟩)
              · exact h
              · exact h3
          · rw [if_neg h3]
            rw [List.mem_append, List.mem_singleton]
            constructor
            · rintro (h | rfl)
              · exact Or.inl h
              · exact Or.inr ⟨Bool.not_eq_true _ ▸ Bool.of_not_eq_true h2, rfl, h1⟩
            · rintro (h | ⟨-, rfl, -⟩)
              · exact Or.inl h
              · exact Or.inr rfl
    rw [hstep]
    constructor
    · rintro (⟨h | ⟨hb, hw, hne⟩⟩ | ⟨g, hg, hprops⟩)
      · exact Or.inl h
      · exact Or.inr ⟨f, List.mem_cons_self f rest, hb, hw, hne⟩
      · exact Or.inr ⟨g, List.mem_cons.mpr (Or.inr hg), hprops⟩
    · rintro (h | ⟨g, hg, hprops⟩)
      · exact Or.inl (Or.inl h)
      · rcases List.mem_cons.mp hg with rfl | hg'
        · exact Or.inl (Or.inr hprops)
        · exact Or.inr ⟨g, hg', hprops⟩

theorem nodup_foldl_scanStep (files : List WFile) (acc : List String)
    (hacc : acc.Nodup) : (files.foldl scanStep acc).Nodup := by
  induction files generalizing acc with
  | nil => exact hacc
  | cons f rest ih =>
    rw [List.foldl_cons]
    refine ih _ ?_
    rw [scanStep]
    by_cases h1 : wext f = ""
    · rw [if_pos h1]
      exact hacc
    · rw [if_neg h1]
      by_cases h2 : isBinaryFile f = true
      · rw [if_pos h2]
        exact hacc
      · rw [if_neg h2]
        by_cases h3 : wext f ∈ acc
        · rw [if_pos h3]
          exact hacc
        · rw [if_neg h3]
          rw [List.nodup_append]
          exact ⟨hacc, List.nodup_singleton _, by simpa using h3⟩

/-- C6 (amended): for any total and transitive `localeCompare` comparator —
a collation induces such an order — the scan result is sorted by that
comparator and deduplicated; a string appears in it exactly when it is the
non-empty lowercased extension of some non-binary file; and a file is
classified binary exactly when its read fails or the first 2048 bytes of
its content hold a null byte.  The order agrees with code-point
lexicographic order only where the host collation does; it is not
lexicographic in general. -/
theorem c6_scan_extensions (lcLe : String → String → Bool) (files : List WFile)
    (htot : ∀ a b, lcLe a b = true ∨ lcLe b a = true)
    (htrans : ∀ a b c, lcLe a b = true → lcLe b c = true → lcLe a c = true) :
    List.Pairwise (fun a b : String => lcLe a b = true)
        (scanExtensionsWorkspace lcLe files)
    ∧ (scanExtensionsWorkspace lcLe files).Nodup
    ∧ (∀ x : String, x ∈ scanExtensionsWorkspace lcLe files ↔
        x ≠ "" ∧ ∃ f ∈ files, isBinaryFile f = false ∧ wext f = x)
    ∧ (∀ f : WFile, isBinaryFile f = true ↔
        (f.content = none ∨ ∃ bs, f.content = some bs ∧ 0 ∈ bs.take BINARY_SNIFF_LENGTH)) := by
  refine ⟨?_, ?_, ?_, ?_⟩
  · rw [scanExtensionsWorkspace]
    exact sorted_sortStrBy lcLe htot htrans (files.foldl scanStep [])
  · rw [scanExtensionsWorkspace]
    exact nodup_sortStrBy lcLe (files.foldl scanStep [])
      (nodup_foldl_scanStep files [] (List.nodup_nil))
  · intro x
    rw [scanExtensionsWorkspace, mem_sortStrBy, mem_foldl_scanStep]
    constructor
    · rintro (h | ⟨f, hf, hb, hw, hne⟩)
      · cases h
      · exact ⟨hne, f, hf, hb, hw⟩
    · rintro ⟨hne, f, hf, hb, hw⟩
      exact Or.inr ⟨f, hf, hb, hw, hne⟩
  · intro f
    rw [isBinaryFile]
    cases hc : f.content with
    | none => simp
    | some bs =>
      simp only [hc, Option.some.injEq, reduceCtorEq, false_or]
      constructor
      · intro h
        exact ⟨bs, rfl, by simpa using h⟩
      · rintro ⟨bs2, heq, hmem⟩
        cases heq
        simpa using hmem

theorem c6_scan_extensions_witness :
    List.Pairwise
        (fun a b : String => (fun a b : String => decide (a ≤ b)) a b = true)
        (scanExtensionsWorkspace (fun a b : String => decide (a ≤ b))
          [⟨["a.txt"], some [104, 10]⟩, ⟨["b.bin"], some [0, 1]⟩]) :=
  (c6_scan_extensions (fun a b : String => decide (a ≤ b))
    [⟨["a.txt"], some [104, 10]⟩, ⟨["b.bin"], some [0, 1]⟩]
    (fun a b => by
      rcases le_total a b with h | h
      · exact Or.inl (by simpa using h)
      · exact Or.inr (by simpa using h))
    (fun a b c hab hbc => by
      simp only [decide_eq_true_eq] at hab hbc ⊢
      exact le_trans hab hbc)).1

/-- C6 counterexample: the scan of a workspace holding the text files
`a.c~` and `b.cpp`, run with the root-collation comparator that
`localeCompare` supplies (ICU gives the tilde, a symbol, a primary weight
below every letter), returns `[".c~", ".cpp"]` — but code-point
lexicographic order puts `".cpp"` first, so the output is not sorted
lexicographically as the claim states. -/
theorem c6_counterexample :
    scanExtensionsWorkspace localeLeFrag
        [⟨["a.c~"], some [104]⟩, ⟨["b.cpp"], some [104]⟩] = [".c~", ".cpp"] ∧
      ¬ List.Pairwise (fun a b : String => a < b) [".c~", ".cpp"] := by
  constructor
  · rfl
  · intro hpw
    have h := (List.pairwise_cons.mp hpw).1 ".cpp" (List.mem_singleton_self _)
    have h2 := String.lt_iff_toList_lt.mp h
    exact absurd h2 (by decide)

/-! ### Workspace lifecycle (`try`/`finally` with swallowed cleanup) -/

/-- The possible terminations of the handler passed to
`withExtractedArchive`: a result, a thrown `ArchiveError`, or any other
unexpected fault. -/
inductive Outcome (T : Type) where
  | ok : T → Outcome T
  | archiveErr : ArchiveError → Outcome T
  | fault : Outcome T

/-- What one run of `withExtractedArchive` leaves behind: its outcome,
whether the temporary workspace was created, whether its removal was
attempted, and whether the removal succeeded. -/
structure RunResult (T : Type) where
  outcome : Outcome T
  workspaceCreated : Bool
  rmAttempted : Bool
  rmSucceeded : Bool

/-- `withExtractedArchive` as a resource-lifecycle model.  The two size
guards throw before `fs.mkdtemp`, so no workspace exists on those paths.
After creation, the body (entry-count guard, extraction, handler — the
termination of the handler is the `handler` parameter) runs inside `try`; the
`finally` block always runs the recursive forced `fs.rm` with a `.catch`
that drops the rejection, so a removal failure (`rmOk = false`) is
swallowed and leaves the primary outcome untouched. -/
def withExtractedArchiveRun (T : Type) (archive : Archive) (tempDir : String)
    (handler : Outcome T) (rmOk : Bool) : RunResult T :=
  if archive.size = 0 then ⟨.archiveErr .emptyArchive, false, false, false⟩
  else if archive.size > MAX_ARCHIVE_BYTES then ⟨.archiveErr .tooLarge, false, false, false⟩
  else
    ⟨(if archive.entries.length = 0 then .archiveErr .noFiles
      else
        match extractEntries tempDir archive.entries with
        | .error e => .archiveErr e
        | .ok _ => handler),
      true, true, rmOk⟩

/-- C7: on every run that reaches workspace creation — whether the body
ends in success, an `ArchiveError`, or an unexpected fault — removal of the
workspace is attempted, and the reported outcome is independent of whether
that removal succeeds: cleanup failure never masks or replaces the primary
result or error. -/
theorem c7_workspace_cleanup (T : Type) (a : Archive) (td : String)
    (handler : Outcome T) (rmOk : Bool)
    (hcreated : (withExtractedArchiveRun T a td handler rmOk).workspaceCreated = true) :
    (withExtractedArchiveRun T a td handler rmOk).rmAttempted = true ∧
      (withExtractedArchiveRun T a td handler rmOk).rmSucceeded = rmOk ∧
      ∀ rmOk', (withExtractedArchiveRun T a td handler rmOk').outcome =
        (withExtractedArchiveRun T a td handler rmOk).outcome := by
  unfold withExtractedArchiveRun at hcreated ⊢
  by_cases h0 : a.size = 0
  · rw [if_pos h0] at hcreated
    cases hcreated
  · by_cases h1 : a.size > MAX_ARCHIVE_BYTES
    · rw [if_neg h0, if_pos h1] at hcreated
      cases hcreated
    · simp only [if_neg h0, if_neg h1]
      simp

theorem c7_workspace_cleanup_witness :
    (withExtractedArchiveRun Nat ⟨3, [⟨"a.txt", [104]⟩]⟩ "/tmp/ws" .fault false).rmAttempted
        = true ∧
      (withExtractedArchiveRun Nat ⟨3, [⟨"a.txt", [104]⟩]⟩ "/tmp/ws" .fault
          false).rmSucceeded = false ∧
      ∀ rmOk', (withExtractedArchiveRun Nat ⟨3, [⟨"a.txt", [104]⟩]⟩ "/tmp/ws" .fault
          rmOk').outcome =
        (withExtractedArchiveRun Nat ⟨3, [⟨"a.txt", [104]⟩]⟩ "/tmp/ws" .fault
          false).outcome :=
  c7_workspace_cleanup Nat ⟨3, [⟨"a.txt", [104]⟩]⟩ "/tmp/ws" .fault false rfl

theorem withExtractedArchive_error_ne_noExt (a : Archive) (td : String)
    (e : ArchiveError) (h : withExtractedArchive a td = .error e) :
    e ≠ .noExtensionsSelected := by
  unfold withExtractedArchive at h
  by_cases h0 : a.size = 0
  · rw [if_pos h0] at h
    cases h
    simp
  · rw [if_neg h0] at h
    by_cases h1 : a.size > MAX_ARCHIVE_BYTES
    · rw [if_pos h1] at h
      cases h
      simp
    · rw [if_neg h1] at h
      by_cases h2 : a.entries.length = 0
      · rw [if_pos h2] at h
        cases h
        simp
      · rw [if_neg h2] at h
        rw [extractEntries_error_eq_unsafePath td a.entries e h]
        simp

/-- C8: the count operation fails with the no-extensions-selected error
exactly when the selected set is empty, and the selection is lowercased
before use, so selections agreeing after lowercasing produce identical
results. -/
theorem c8_selection_guard :
    (∀ (a : Archive) (td : String) (files : List WFile) (sel : List String),
      countLinesFromArchive a td files sel = .error .noExtensionsSelected ↔ sel = [])
    ∧ (∀ (a : Archive) (td : String) (files : List WFile) (sel sel' : List String),
        sel.map strToLower = sel'.map strToLower →
        countLinesFromArchive a td files sel = countLinesFromArchive a td files sel') := by
  constructor
  · intro a td files sel
    rw [countLinesFromArchive]
    by_cases h0 : sel.length = 0
    · rw [if_pos h0]
      simp [List.length_eq_zero.mp h0]
    · rw [if_neg h0]
      constructor
      · intro h
        cases hex : withExtractedArchive a td with
        | error e =>
          rw [hex] at h
          simp only [] at h
          cases h
          exact absurd rfl (withExtractedArchive_error_ne_noExt a td _ hex)
        | ok out =>
          rw [hex] at h
          simp only [] at h
          cases h
      · intro h
        rw [h] at h0
        exact absurd rfl h0
  · intro a td files sel sel' hmap
    have hlen : sel.length = sel'.length := by
      have := congrArg List.length hmap
      simpa using this
    rw [countLinesFromArchive, countLinesFromArchive, hlen]
    by_cases h0 : sel'.length = 0
    · simp only [if_pos h0]
    · simp only [if_neg h0]
      cases hex : withExtractedArchive a td with
      | error e => rfl
      | ok out =>
        simp only []
        rw [countLinesWorkspace, countLinesWorkspace, hmap]

theorem c8_selection_guard_witness :
    countLinesFromArchive ⟨3, [⟨"a.txt", [104]⟩]⟩ "/tmp/ws"
        [⟨["a.txt"], some [104]⟩] [".TXT"] =
      countLinesFromArchive ⟨3, [⟨"a.txt", [104]⟩]⟩ "/tmp/ws"
        [⟨["a.txt"], some [104]⟩] [".txt"] :=
  c8_selection_guard.2 ⟨3, [⟨"a.txt", [104]⟩]⟩ "/tmp/ws"
    [⟨["a.txt"], some [104]⟩] [".TXT"] [".txt"] (by decide)

/-- What `readdir` guarantees about walked files: at least one path segment,
and every segment is a directory-entry name — non-empty, not the
current-directory name, and free of the separator. -/
def wellFormedFile (sep : Char) (f : WFile) : Prop :=
  f.segs ≠ [] ∧ ∀ s ∈ f.segs, s.data ≠ [] ∧ s.data ≠ ['.'] ∧ sep ∉ s.data

instance (sep : Char) (f : WFile) : Decidable (wellFormedFile sep f) := by
  unfold wellFormedFile
  infer_instance

/-- For a well-formed walked file, `path.relative(root, filePath)` is never
empty and equals the separator-joined relative segments, so the basename
fallback is dead and the reported path is exactly the relative path. -/
theorem reportedPath_eq (sep : Char) (root : String) (f : WFile)
    (hwf : wellFormedFile sep f) :
    reportedPath sep root f = mkStr (interSegsC sep (f.segs.map String.data)) := by
  obtain ⟨hne, hsegs⟩ := hwf
  have hmapne : f.segs.map String.data ≠ [] := by
    simpa using hne
  have hkeep : ∀ t ∈ f.segs.map String.data, keepSeg t = true := by
    intro t ht
    obtain ⟨s, hs, rfl⟩ := List.mem_map.mp ht
    have := hsegs s hs
    simp [keepSeg, this.1, this.2.1]
  have hI0 : interSegsC sep (f.segs.map String.data) ≠ [] :=
    interSegsC_ne_nil sep _ hmapne hkeep
  have hfp : (filePathOf sep root f).data =
      (root.data ++ [sep]) ++ interSegsC sep (f.segs.map String.data) := by
    rw [filePathOf]
    simp [mkStr]
  have hrel : relModel sep root (filePathOf sep root f) =
      mkStr (interSegsC sep (f.segs.map String.data)) := by
    rw [relModel, if_pos (by rw [hfp]; exact leadChars_append _ _), hfp]
    rw [show root.data.length + 1 = (root.data ++ [sep]).length by simp]
    rw [List.drop_left]
  rw [reportedPath, hrel, if_neg]
  intro hcon
  exact hI0 (by simpa [mkStr, String.ext_iff] using hcon)

/-- C9 (amended): the reported top-files paths are built with the host path
module, hence with the host separator; on a POSIX host (separator `/`, the
deployment platform) every reported entry is the forward-slash-joined path
of an included walked file relative to the workspace root, with the
line count. -/
theorem c9_relative_forward_slash_paths (root : String) (files : List WFile)
    (sel : List String) (hwf : ∀ f ∈ files, wellFormedFile '/' f) :
    ∀ tf ∈ (countLinesWorkspace '/' root files sel).top_files,
      ∃ f ∈ files, includeFile (sel.map strToLower) f = true ∧
        tf.path = mkStr (interSegsC '/' (f.segs.map String.data)) ∧
        tf.lines = countLinesInFile f.content := by
  intro tf htf
  rw [top_files_shape] at htf
  have htf2 : tf ∈ sortByDesc TopFile.lines
      (discoveredTopFiles '/' root (sel.map strToLower) files) :=
    List.take_subset _ _ htf
  have htf3 : tf ∈ discoveredTopFiles '/' root (sel.map strToLower) files :=
    (perm_sortByDesc TopFile.lines _).mem_iff.mp htf2
  rw [discoveredTopFiles] at htf3
  obtain ⟨f, hf, heq⟩ := List.mem_map.mp htf3
  have hfin : f ∈ files := List.mem_of_mem_filter hf
  have hincl : includeFile (sel.map strToLower) f = true := List.of_mem_filter hf
  refine ⟨f, hfin, hincl, ?_, ?_⟩
  · rw [← heq]
    exact (reportedPath_eq '/' root f (hwf f hfin)).symm ▸ rfl
  · rw [← heq]

theorem c9_relative_forward_slash_paths_witness :
    ∃ f ∈ [(⟨["sub", "a.txt"], some [104]⟩ : WFile)],
      includeFile ([".txt"].map strToLower) f = true ∧
        (⟨"sub/a.txt", 1⟩ : TopFile).path =
          mkStr (interSegsC '/' (f.segs.map String.data)) ∧
        (⟨"sub/a.txt", 1⟩ : TopFile).lines = countLinesInFile f.content :=
  c9_relative_forward_slash_paths "/ws" [⟨["sub", "a.txt"], some [104]⟩] [".txt"]
    (by decide) ⟨"sub/a.txt", 1⟩ (by decide)

/-- C9 counterexample: with the Windows path module (separator `\`), the
same nested single-line file is reported as `sub\a.txt` — a path that
contains no forward slash at all — instead of the forward-slash-joined
relative path `sub/a.txt` that the claim promises on every host. -/
theorem c9_counterexample :
    (countLinesWorkspace '\\' "C:\\ws" [⟨["sub", "a.txt"], some [104]⟩]
        [".txt"]).top_files = [⟨"sub\\a.txt", 1⟩] ∧
      ("sub\\a.txt" : String) ≠ mkStr (interSegsC '/' (["sub", "a.txt"].map String.data)) ∧
      '/' ∉ ("sub\\a.txt" : String).data := by
  refine ⟨rfl, ?_, ?_⟩
  · decide
  · decide

end LocCounter
